import Mathlib

/-!
# Quaternion algebra of the PS Move API

A shallow embedding of `src/math/psmove_quaternion.cpp` together with the
parts of the Eigen geometry module that file calls (`Quaternionf`,
`AngleAxisf`, `Matrix3f`, `Vector3f`).

The scalar type is a parameter `α` (an ordered field), so every definition is
an ordinary computable function; the single-precision `float` of the source is
read in exact arithmetic.  The C math library functions used by the source
(`cosf`, `sinf`, `asinf`, `atan2f`, `sqrt`) and the constant `k_real_pi` are
collected in the class `MathLib`; on the real numbers they are the true
functions.
-/

namespace PSMove

/-! ## Scalar environment -/

/-- Scalar math environment of the source: the C math library functions called
by `psmove_quaternion.cpp` and by Eigen, and the constant `k_real_pi`. -/
class MathLib (α : Type) where
  /-- The function `cosf`. -/
  cosf : α → α
  /-- The function `sinf`. -/
  sinf : α → α
  /-- The function `asinf`. -/
  asinf : α → α
  /-- The function `atan2f`, called as `atan2f y x`. -/
  atan2f : α → α → α
  /-- The function `sqrt`. -/
  sqrt : α → α
  /-- The constant `k_real_pi`. -/
  k_real_pi : α

export MathLib (cosf sinf asinf atan2f k_real_pi)

/-- Exact-arithmetic reading of the math library on the real numbers:
`atan2f y x` is the argument of the complex number `x + y i`, which lies in
`(-π, π]` and is `0` at the origin.  The constant `k_real_pi`, declared in a
header outside the sources at hand, is read as `π`, the value the spec gives
for it. -/
noncomputable instance realMathLib : MathLib ℝ where
  cosf := Real.cos
  sinf := Real.sin
  asinf := Real.arcsin
  atan2f := fun y x => Complex.arg ⟨x, y⟩
  sqrt := Real.sqrt
  k_real_pi := Real.pi

/-- Modelled from the spec: the macro `is_nearly_zero` is declared in a header
that is not part of the sources at hand.  A scalar is nearly zero when its
absolute value is below the fixed near-zero epsilon `k_real_epsilon`. -/
def is_nearly_zero {α : Type} [LinearOrderedField α] (k_real_epsilon x : α) : Bool :=
  decide (|x| < k_real_epsilon)

/-! ## Eigen value types -/

/-- Eigen `Vector3f`. -/
structure Vector3f (α : Type) where
  x : α
  y : α
  z : α

/-- Eigen `Vector4f`, used for the coefficient vector of a quaternion, which
Eigen stores in the order `x, y, z, w`. -/
structure Vector4f (α : Type) where
  x : α
  y : α
  z : α
  w : α

/-- Eigen `Quaternionf`; the constructor takes the components in the order
`w, x, y, z`, as `Eigen::Quaternionf(w, x, y, z)` does. -/
structure Quaternionf (α : Type) where
  w : α
  x : α
  y : α
  z : α

/-- Eigen `Matrix3f`; the field `mIJ` is `coeff(I, J)` (row `I`, column `J`). -/
structure Matrix3f (α : Type) where
  m00 : α
  m01 : α
  m02 : α
  m10 : α
  m11 : α
  m12 : α
  m20 : α
  m21 : α
  m22 : α

/-- Eigen `AngleAxisf`: an angle in radians and an axis. -/
structure AngleAxisf (α : Type) where
  angle : α
  axis : Vector3f α

/-- The three out-parameters of `psmove_quaternion_get_yaw_pitch_roll`. -/
structure YawPitchRoll (α : Type) where
  out_yaw_radians : α
  out_pitch_radians : α
  out_roll_radians : α

section Eigen

variable {α : Type} [LinearOrderedField α]

namespace Vector3f

/-- Eigen `a + b` on `Vector3f`. -/
def add (a b : Vector3f α) : Vector3f α := ⟨a.x + b.x, a.y + b.y, a.z + b.z⟩

/-- Eigen `s * v` on `Vector3f`. -/
def smul (s : α) (v : Vector3f α) : Vector3f α := ⟨s * v.x, s * v.y, s * v.z⟩

/-- Eigen `a.cross(b)`. -/
def cross (a b : Vector3f α) : Vector3f α :=
  ⟨a.y * b.z - a.z * b.y, a.z * b.x - a.x * b.z, a.x * b.y - a.y * b.x⟩

/-- Eigen `a.dot(b)`. -/
def dot (a b : Vector3f α) : α := a.x * b.x + a.y * b.y + a.z * b.z

end Vector3f

namespace Vector4f

/-- Eigen `a + b` on `Vector4f`. -/
def add (a b : Vector4f α) : Vector4f α := ⟨a.x + b.x, a.y + b.y, a.z + b.z, a.w + b.w⟩

/-- Eigen `v * s` on `Vector4f`. -/
def mulScalar (v : Vector4f α) (s : α) : Vector4f α := ⟨v.x * s, v.y * s, v.z * s, v.w * s⟩

/-- Eigen `v / s` on `Vector4f`. -/
def divScalar (v : Vector4f α) (s : α) : Vector4f α := ⟨v.x / s, v.y / s, v.z / s, v.w / s⟩

/-- Eigen `v.squaredNorm()`. -/
def squaredNorm (v : Vector4f α) : α := v.x * v.x + v.y * v.y + v.z * v.z + v.w * v.w

/-- Eigen `v.normalize()` (`MatrixBase::normalize`): the vector is divided by
the square root of its squared norm when that is positive and left as it is
otherwise.  (Older Eigen releases divide without the test; the two agree on
every non-zero vector.) -/
def normalize [MathLib α] (v : Vector4f α) : Vector4f α :=
  let z := v.squaredNorm
  if z > 0 then v.divScalar (MathLib.sqrt z) else v

end Vector4f

namespace Matrix3f

/-- Eigen `m.coeff(i, j)`. -/
def coeff (m : Matrix3f α) (i j : Fin 3) : α :=
  match i, j with
  | 0, 0 => m.m00
  | 0, 1 => m.m01
  | 0, 2 => m.m02
  | 1, 0 => m.m10
  | 1, 1 => m.m11
  | 1, 2 => m.m12
  | 2, 0 => m.m20
  | 2, 1 => m.m21
  | 2, 2 => m.m22

/-- Eigen `m.trace()`. -/
def trace (m : Matrix3f α) : α := m.m00 + m.m11 + m.m22

/-- Eigen `m * v`, a matrix applied to a column vector. -/
def mulVec (m : Matrix3f α) (v : Vector3f α) : Vector3f α :=
  ⟨m.m00 * v.x + m.m01 * v.y + m.m02 * v.z,
   m.m10 * v.x + m.m11 * v.y + m.m12 * v.z,
   m.m20 * v.x + m.m21 * v.y + m.m22 * v.z⟩

/-- Eigen `m.transpose()`. -/
def transpose (m : Matrix3f α) : Matrix3f α :=
  { m00 := m.m00, m01 := m.m10, m02 := m.m20,
    m10 := m.m01, m11 := m.m11, m12 := m.m21,
    m20 := m.m02, m21 := m.m12, m22 := m.m22 }

/-- Eigen `a * b`, the matrix product. -/
def mul (a b : Matrix3f α) : Matrix3f α :=
  { m00 := a.m00 * b.m00 + a.m01 * b.m10 + a.m02 * b.m20,
    m01 := a.m00 * b.m01 + a.m01 * b.m11 + a.m02 * b.m21,
    m02 := a.m00 * b.m02 + a.m01 * b.m12 + a.m02 * b.m22,
    m10 := a.m10 * b.m00 + a.m11 * b.m10 + a.m12 * b.m20,
    m11 := a.m10 * b.m01 + a.m11 * b.m11 + a.m12 * b.m21,
    m12 := a.m10 * b.m02 + a.m11 * b.m12 + a.m12 * b.m22,
    m20 := a.m20 * b.m00 + a.m21 * b.m10 + a.m22 * b.m20,
    m21 := a.m20 * b.m01 + a.m21 * b.m11 + a.m22 * b.m21,
    m22 := a.m20 * b.m02 + a.m21 * b.m12 + a.m22 * b.m22 }

/-- Eigen `Matrix3f::Identity()`. -/
def identity : Matrix3f α :=
  { m00 := 1, m01 := 0, m02 := 0, m10 := 0, m11 := 1, m12 := 0, m20 := 0, m21 := 0, m22 := 1 }

/-- Eigen `m.determinant()`. -/
def determinant (m : Matrix3f α) : α :=
  m.m00 * (m.m11 * m.m22 - m.m12 * m.m21)
    - m.m01 * (m.m10 * m.m22 - m.m12 * m.m20)
    + m.m02 * (m.m10 * m.m21 - m.m11 * m.m20)

end Matrix3f

namespace Quaternionf

/-- Eigen `q.coeffs()`: the coefficient vector, in the order `x, y, z, w`. -/
def coeffs (q : Quaternionf α) : Vector4f α := ⟨q.x, q.y, q.z, q.w⟩

/-- Eigen `Quaternionf(v)` for a 4-vector expression `v`: the coefficients are
copied. -/
def ofCoeffs (v : Vector4f α) : Quaternionf α := ⟨v.w, v.x, v.y, v.z⟩

/-- Eigen `q.vec()`: the vector part. -/
def vec (q : Quaternionf α) : Vector3f α := ⟨q.x, q.y, q.z⟩

/-- Eigen `q.squaredNorm()`. -/
def squaredNorm (q : Quaternionf α) : α := q.coeffs.squaredNorm

/-- Eigen `q.norm()`. -/
def norm [MathLib α] (q : Quaternionf α) : α := MathLib.sqrt q.squaredNorm

/-- Eigen `q.normalize()`, which normalizes the coefficient vector. -/
def normalize [MathLib α] (q : Quaternionf α) : Quaternionf α := ofCoeffs q.coeffs.normalize

/-- Eigen `q.conjugate()`. -/
def conjugate (q : Quaternionf α) : Quaternionf α := ⟨q.w, -q.x, -q.y, -q.z⟩

/-- Eigen `q.inverse()`: the conjugate divided by the squared norm when that is
positive, and the zero coefficients otherwise. -/
def inverse (q : Quaternionf α) : Quaternionf α :=
  let n2 := q.squaredNorm
  if n2 > 0 then ofCoeffs (q.conjugate.coeffs.divScalar n2) else ofCoeffs ⟨0, 0, 0, 0⟩

/-- Eigen `a * b`, the Hamilton product. -/
def mul (a b : Quaternionf α) : Quaternionf α :=
  ⟨a.w * b.w - a.x * b.x - a.y * b.y - a.z * b.z,
   a.w * b.x + a.x * b.w + a.y * b.z - a.z * b.y,
   a.w * b.y + a.y * b.w + a.z * b.x - a.x * b.z,
   a.w * b.z + a.z * b.w + a.x * b.y - a.y * b.x⟩

/-- Eigen `q._transformVector(v)`: the counterclockwise rotation `q v q⁻¹` in
the hand-optimised form of `QuaternionBase::_transformVector`. -/
def _transformVector (q : Quaternionf α) (v : Vector3f α) : Vector3f α :=
  let uv := q.vec.cross v
  let uv := uv.add uv
  (v.add (Vector3f.smul q.w uv)).add (q.vec.cross uv)

/-- Eigen `q.toRotationMatrix()`. -/
def toRotationMatrix (q : Quaternionf α) : Matrix3f α :=
  let tx := 2 * q.x
  let ty := 2 * q.y
  let tz := 2 * q.z
  let twx := tx * q.w
  let twy := ty * q.w
  let twz := tz * q.w
  let txx := tx * q.x
  let txy := ty * q.x
  let txz := tz * q.x
  let tyy := ty * q.y
  let tyz := tz * q.y
  let tzz := tz * q.z
  { m00 := 1 - (tyy + tzz), m01 := txy - twz, m02 := txz + twy,
    m10 := txy + twz, m11 := 1 - (txx + tzz), m12 := tyz - twx,
    m20 := txz - twy, m21 := tyz + twx, m22 := 1 - (txx + tyy) }

/-- Eigen `Quaternionf(aa)` for an angle-axis `aa`
(`QuaternionBase::operator=(const AngleAxisType&)`). -/
def ofAngleAxis [MathLib α] (aa : AngleAxisf α) : Quaternionf α :=
  let ha := (1 / 2) * aa.angle
  let v := Vector3f.smul (sinf ha) aa.axis
  ⟨cosf ha, v.x, v.y, v.z⟩

/-- Eigen `Quaternionf(m)` for a 3x3 matrix `m`
(`quaternionbase_assign_impl<Other,3,3>::run`, after Shoemake): one branch for
a positive trace, and otherwise one branch for each position `i` of the
largest diagonal coefficient, with `j = (i+1) % 3` and `k = (j+1) % 3`. -/
def ofMatrix [MathLib α] (mat : Matrix3f α) : Quaternionf α :=
  let t := mat.trace
  if t > 0 then
    let t := MathLib.sqrt (t + 1)
    let w := (1 / 2) * t
    let t := (1 / 2) / t
    ⟨w, (mat.coeff 2 1 - mat.coeff 1 2) * t, (mat.coeff 0 2 - mat.coeff 2 0) * t,
      (mat.coeff 1 0 - mat.coeff 0 1) * t⟩
  else
    let i : Fin 3 := 0
    let i : Fin 3 := if mat.coeff 1 1 > mat.coeff 0 0 then 1 else i
    let i : Fin 3 := if mat.coeff 2 2 > mat.coeff i i then 2 else i
    let j : Fin 3 := i + 1
    let k : Fin 3 := j + 1
    let t := MathLib.sqrt (mat.coeff i i - mat.coeff j j - mat.coeff k k + 1)
    let ci := (1 / 2) * t
    let t := (1 / 2) / t
    let w := (mat.coeff k j - mat.coeff j k) * t
    let cj := (mat.coeff j i + mat.coeff i j) * t
    let ck := (mat.coeff k i + mat.coeff i k) * t
    let c : Fin 3 → α := fun n => if n = i then ci else if n = j then cj else ck
    ⟨w, c 0, c 1, c 2⟩

end Quaternionf

end Eigen

/-! ## The functions of `psmove_quaternion.cpp` -/

section Source

variable {α : Type} [LinearOrderedField α]

/-- The global `g_psmove_quaternion_zero`, `Eigen::Quaternionf(0, 0, 0, 0)`. -/
def g_psmove_quaternion_zero : Quaternionf α := ⟨0, 0, 0, 0⟩

/-- Source function `psmove_quaterion_yaw_pitch_roll` (x = pitch, y = yaw,
z = roll). -/
def psmove_quaterion_yaw_pitch_roll [MathLib α]
    (yaw_radians pitch_radians roll_radians : α) : Quaternionf α :=
  let cx := cosf (pitch_radians / 2)
  let sx := sinf (pitch_radians / 2)
  let cy := cosf (yaw_radians / 2)
  let sy := sinf (yaw_radians / 2)
  let cz := cosf (roll_radians / 2)
  let sz := sinf (roll_radians / 2)
  ⟨cx * cy * cz + sx * sy * sz,
   sx * cy * cz - cx * sy * sz,
   cx * sy * cz + sx * cy * sz,
   cx * cy * sz - sx * sy * cz⟩

/-- Source function `psmove_quaternion_get_yaw_pitch_roll`; the three
out-parameters are returned as a record.  The threshold is the value of the
single-precision literal `0.499f`, which is `8371831 / 16777216` (that is
`8371831 / 2^24`, about `0.49900001287`), slightly above the decimal
`0.499`. -/
def psmove_quaternion_get_yaw_pitch_roll [MathLib α] (q : Quaternionf α) : YawPitchRoll α :=
  let test := q.x * q.y + q.z * q.w
  if test > 8371831 / 16777216 then
    { out_yaw_radians := 2 * atan2f q.x q.w
      out_roll_radians := k_real_pi / 2
      out_pitch_radians := 0 }
  else if test < -(8371831 / 16777216) then
    { out_yaw_radians := -2 * atan2f q.x q.w
      out_roll_radians := -k_real_pi / 2
      out_pitch_radians := 0 }
  else
    let sqx := q.x * q.x
    let sqy := q.y * q.y
    let sqz := q.z * q.z
    { out_yaw_radians := atan2f (2 * q.y * q.w - 2 * q.x * q.z) (1 - 2 * sqy - 2 * sqz)
      out_roll_radians := asinf (2 * test)
      out_pitch_radians := atan2f (2 * q.x * q.w - 2 * q.y * q.z) (1 - 2 * sqx - 2 * sqz) }

/-- Source function `psmove_quaternion_angle_axis`. -/
def psmove_quaternion_angle_axis [MathLib α] (radians : α) (axis : Vector3f α) :
    Quaternionf α :=
  Quaternionf.ofAngleAxis ⟨radians, axis⟩

/-- Source function `psmove_quaternion_normalized_lerp`. -/
def psmove_quaternion_normalized_lerp [MathLib α] (a b : Quaternionf α) (u : α) :
    Quaternionf α :=
  let q := Quaternionf.ofCoeffs ((a.coeffs.mulScalar (1 - u)).add (b.coeffs.mulScalar u))
  q.normalize

/-- Source function `psmove_quaternion_safe_divide_with_default`; the epsilon
of `is_nearly_zero` is the first argument. -/
def psmove_quaternion_safe_divide_with_default (k_real_epsilon : α)
    (q : Quaternionf α) (divisor : α) (default_result : Quaternionf α) : Quaternionf α :=
  if !is_nearly_zero k_real_epsilon divisor then
    Quaternionf.ofCoeffs (q.coeffs.divScalar divisor)
  else
    default_result

/-- Source function `psmove_quaternion_normalize_with_default`: the result is
the returned magnitude together with the new value of the in/out
quaternion. -/
def psmove_quaternion_normalize_with_default [MathLib α] (k_real_epsilon : α)
    (inout_v default_result : Quaternionf α) : α × Quaternionf α :=
  let magnitude := inout_v.norm
  (magnitude,
    psmove_quaternion_safe_divide_with_default k_real_epsilon inout_v magnitude default_result)

/-- Source function `psmove_vector3f_clockwise_rotate`.  The debug assertion
`assert_quaternion_is_normalized` states a precondition and does not change
the value returned. -/
def psmove_vector3f_clockwise_rotate (q : Quaternionf α) (v : Vector3f α) : Vector3f α :=
  q.conjugate._transformVector v

/-- Source function `psmove_quaternion_to_clockwise_matrix3f`. -/
def psmove_quaternion_to_clockwise_matrix3f (q : Quaternionf α) : Matrix3f α :=
  q.conjugate.toRotationMatrix

/-- Source function `psmove_matrix3f_to_clockwise_quaternion`. -/
def psmove_matrix3f_to_clockwise_quaternion [MathLib α] (m : Matrix3f α) : Quaternionf α :=
  let q := Quaternionf.ofMatrix m
  q.conjugate

end Source

/-! ## Reference formulas -/

section Reference

variable {α : Type} [LinearOrderedField α]

/-- The right-handed (counterclockwise) rotation of `v` by `theta` about the
unit axis `n`, by the formula of Rodrigues:
`v cos(theta) + (n x v) sin(theta) + n (n.v) (1 - cos(theta))`. -/
def counterclockwise_rotation [MathLib α] (theta : α) (n v : Vector3f α) : Vector3f α :=
  ((Vector3f.smul (cosf theta) v).add (Vector3f.smul (sinf theta) (n.cross v))).add
    (Vector3f.smul (n.dot v * (1 - cosf theta)) n)

/-- The clockwise rotation of `v` by `theta` about the unit axis `n`:
`v cos(theta) - (n x v) sin(theta) + n (n.v) (1 - cos(theta))`. -/
def clockwise_rotation [MathLib α] (theta : α) (n v : Vector3f α) : Vector3f α :=
  ((Vector3f.smul (cosf theta) v).add (Vector3f.smul (-sinf theta) (n.cross v))).add
    (Vector3f.smul (n.dot v * (1 - cosf theta)) n)

/-- The rotation by `t` about the x axis, `(cos(t/2), sin(t/2), 0, 0)` in
`(w, x, y, z)` order. -/
def qx [MathLib α] (t : α) : Quaternionf α := ⟨cosf (t / 2), sinf (t / 2), 0, 0⟩

/-- The rotation by `t` about the y axis, `(cos(t/2), 0, sin(t/2), 0)`. -/
def qy [MathLib α] (t : α) : Quaternionf α := ⟨cosf (t / 2), 0, sinf (t / 2), 0⟩

/-- The rotation by `t` about the z axis, `(cos(t/2), 0, 0, sin(t/2))`. -/
def qz [MathLib α] (t : α) : Quaternionf α := ⟨cosf (t / 2), 0, 0, sinf (t / 2)⟩

/-- The quaternion `-q`, every component negated. -/
def Quaternionf.neg (q : Quaternionf α) : Quaternionf α := ⟨-q.w, -q.x, -q.y, -q.z⟩

/-- The pure quaternion `(0, v)` of a vector `v`. -/
def pure_quaternion (v : Vector3f α) : Quaternionf α := ⟨0, v.x, v.y, v.z⟩

/-- The vector part of the sandwich product `p * (0, v) * p̄` of Hamilton
products, with `p̄` the conjugate of `p`. -/
def sandwich (p : Quaternionf α) (v : Vector3f α) : Vector3f α :=
  ((p.mul (pure_quaternion v)).mul p.conjugate).vec

/-- A valid rotation matrix: orthonormal (`m mᵀ` is the identity) with
determinant one. -/
def Matrix3f.IsRotation (m : Matrix3f α) : Prop :=
  m.mul m.transpose = Matrix3f.identity ∧ m.determinant = 1

/-- The quadratic relations between the coefficients of a rotation matrix:
orthonormal rows, every coefficient equal to its cofactor, and orthonormal
columns. -/
structure RotationRelations (m : Matrix3f ℝ) : Prop where
  r00 : m.m00 * m.m00 + m.m01 * m.m01 + m.m02 * m.m02 = 1
  r11 : m.m10 * m.m10 + m.m11 * m.m11 + m.m12 * m.m12 = 1
  r22 : m.m20 * m.m20 + m.m21 * m.m21 + m.m22 * m.m22 = 1
  r01 : m.m00 * m.m10 + m.m01 * m.m11 + m.m02 * m.m12 = 0
  r02 : m.m00 * m.m20 + m.m01 * m.m21 + m.m02 * m.m22 = 0
  r12 : m.m10 * m.m20 + m.m11 * m.m21 + m.m12 * m.m22 = 0
  k00 : m.m11 * m.m22 - m.m12 * m.m21 = m.m00
  k01 : m.m12 * m.m20 - m.m10 * m.m22 = m.m01
  k02 : m.m10 * m.m21 - m.m11 * m.m20 = m.m02
  k10 : m.m21 * m.m02 - m.m22 * m.m01 = m.m10
  k11 : m.m22 * m.m00 - m.m20 * m.m02 = m.m11
  k12 : m.m20 * m.m01 - m.m21 * m.m00 = m.m12
  k20 : m.m01 * m.m12 - m.m02 * m.m11 = m.m20
  k21 : m.m02 * m.m10 - m.m00 * m.m12 = m.m21
  k22 : m.m00 * m.m11 - m.m01 * m.m10 = m.m22
  c00 : m.m00 * m.m00 + m.m10 * m.m10 + m.m20 * m.m20 = 1
  c11 : m.m01 * m.m01 + m.m11 * m.m11 + m.m21 * m.m21 = 1
  c22 : m.m02 * m.m02 + m.m12 * m.m12 + m.m22 * m.m22 = 1
  c01 : m.m00 * m.m01 + m.m10 * m.m11 + m.m20 * m.m21 = 0
  c02 : m.m00 * m.m02 + m.m10 * m.m12 + m.m20 * m.m22 = 0
  c12 : m.m01 * m.m02 + m.m11 * m.m12 + m.m21 * m.m22 = 0

end Reference

/-! ## Basic facts about the scalar environment -/

section Basic

variable {α : Type} [LinearOrderedField α]

theorem is_nearly_zero_eq_true_iff (eps x : α) : is_nearly_zero eps x = true ↔ |x| < eps := by
  simp [is_nearly_zero]

theorem is_nearly_zero_eq_false_iff (eps x : α) : is_nearly_zero eps x = false ↔ eps ≤ |x| := by
  simp [is_nearly_zero]

theorem safe_divide_of_nearly_zero (eps : α) (q : Quaternionf α) (d : α) (dflt : Quaternionf α)
    (h : |d| < eps) : psmove_quaternion_safe_divide_with_default eps q d dflt = dflt := by
  simp [psmove_quaternion_safe_divide_with_default, is_nearly_zero, h]

theorem safe_divide_of_not_nearly_zero (eps : α) (q : Quaternionf α) (d : α)
    (dflt : Quaternionf α) (h : eps ≤ |d|) :
    psmove_quaternion_safe_divide_with_default eps q d dflt
      = ⟨q.w / d, q.x / d, q.y / d, q.z / d⟩ := by
  simp [psmove_quaternion_safe_divide_with_default, is_nearly_zero, h,
    Quaternionf.ofCoeffs, Quaternionf.coeffs, Vector4f.divScalar]

end Basic

/-! ## Norms and normalization on the real numbers -/

section RealNorm

theorem Quaternionf.squaredNorm_eq {α : Type} [LinearOrderedField α] (q : Quaternionf α) :
    q.squaredNorm = q.x * q.x + q.y * q.y + q.z * q.z + q.w * q.w := rfl

theorem Quaternionf.norm_eq (q : Quaternionf ℝ) :
    q.norm = Real.sqrt (q.x * q.x + q.y * q.y + q.z * q.z + q.w * q.w) := rfl

theorem Quaternionf.squaredNorm_nonneg (q : Quaternionf ℝ) : 0 ≤ q.squaredNorm := by
  rw [Quaternionf.squaredNorm_eq]
  nlinarith [mul_self_nonneg q.x, mul_self_nonneg q.y, mul_self_nonneg q.z, mul_self_nonneg q.w]

theorem Quaternionf.norm_nonneg (q : Quaternionf ℝ) : 0 ≤ q.norm := Real.sqrt_nonneg _

theorem Quaternionf.norm_mul_self (q : Quaternionf ℝ) : q.norm * q.norm = q.squaredNorm :=
  Real.mul_self_sqrt q.squaredNorm_nonneg

theorem Quaternionf.squaredNorm_pos_of_ne (q : Quaternionf ℝ) (h : q ≠ ⟨0, 0, 0, 0⟩) :
    0 < q.squaredNorm := by
  rcases q with ⟨w, x, y, z⟩
  rw [Quaternionf.squaredNorm_eq]
  by_contra hle
  have hle : x * x + y * y + z * z + w * w ≤ 0 := not_lt.mp hle
  have hw : w = 0 := by
    nlinarith [mul_self_nonneg x, mul_self_nonneg y, mul_self_nonneg z, mul_self_nonneg w]
  have hx : x = 0 := by
    nlinarith [mul_self_nonneg x, mul_self_nonneg y, mul_self_nonneg z, mul_self_nonneg w]
  have hy : y = 0 := by
    nlinarith [mul_self_nonneg x, mul_self_nonneg y, mul_self_nonneg z, mul_self_nonneg w]
  have hz : z = 0 := by
    nlinarith [mul_self_nonneg x, mul_self_nonneg y, mul_self_nonneg z, mul_self_nonneg w]
  exact h (by rw [hw, hx, hy, hz])

theorem Quaternionf.norm_pos_of_ne (q : Quaternionf ℝ) (h : q ≠ ⟨0, 0, 0, 0⟩) : 0 < q.norm :=
  Real.sqrt_pos.mpr (q.squaredNorm_pos_of_ne h)

/-- The quaternion `q / n`, component by component. -/
theorem Quaternionf.squaredNorm_div (q : Quaternionf ℝ) (n : ℝ) (hn : n ≠ 0) :
    (⟨q.w / n, q.x / n, q.y / n, q.z / n⟩ : Quaternionf ℝ).squaredNorm
      = q.squaredNorm / (n * n) := by
  simp only [Quaternionf.squaredNorm_eq]
  field_simp

theorem Quaternionf.squaredNorm_div_norm (q : Quaternionf ℝ) (h : 0 < q.norm) :
    (⟨q.w / q.norm, q.x / q.norm, q.y / q.norm, q.z / q.norm⟩ : Quaternionf ℝ).squaredNorm
      = 1 := by
  rw [Quaternionf.squaredNorm_div q q.norm h.ne', ← q.norm_mul_self]
  exact div_self (mul_pos h h).ne'

theorem Quaternionf.normalize_of_pos (q : Quaternionf ℝ) (h : 0 < q.squaredNorm) :
    q.normalize = ⟨q.w / q.norm, q.x / q.norm, q.y / q.norm, q.z / q.norm⟩ := by
  have h2 : q.coeffs.squaredNorm > 0 := h
  simp only [Quaternionf.normalize, Vector4f.normalize, if_pos h2]
  rfl

theorem Quaternionf.normalize_of_norm_eq_one (q : Quaternionf ℝ) (h : q.norm = 1) :
    q.normalize = q := by
  have hpos : 0 < q.squaredNorm := by
    rw [← q.norm_mul_self, h]; norm_num
  rw [q.normalize_of_pos hpos, h]
  simp

end RealNorm

/-! ## Safe divide -/

/-- C4: for a positive epsilon, `psmove_quaternion_safe_divide_with_default`
returns exactly the default when the divisor is zero and, more generally,
whenever the divisor is nearly zero (`|d|` below the epsilon); otherwise it
returns the quaternion whose four components are those of `q` divided by `d`,
and in that case the divisor is not nearly zero and in particular not zero. -/
theorem safe_divide_with_default_spec {α : Type} [LinearOrderedField α]
    (eps : α) (q : Quaternionf α) (d : α) (dflt : Quaternionf α) (heps : 0 < eps) :
    psmove_quaternion_safe_divide_with_default eps q 0 dflt = dflt ∧
    (|d| < eps → psmove_quaternion_safe_divide_with_default eps q d dflt = dflt) ∧
    (¬ |d| < eps →
      is_nearly_zero eps d = false ∧ d ≠ 0 ∧
      psmove_quaternion_safe_divide_with_default eps q d dflt
        = ⟨q.w / d, q.x / d, q.y / d, q.z / d⟩) := by
  refine ⟨safe_divide_of_nearly_zero eps q 0 dflt (by simpa using heps),
    safe_divide_of_nearly_zero eps q d dflt, fun h => ?_⟩
  have hd : eps ≤ |d| := not_lt.mp h
  refine ⟨(is_nearly_zero_eq_false_iff eps d).mpr hd, ?_,
    safe_divide_of_not_nearly_zero eps q d dflt hd⟩
  intro h0
  rw [h0, abs_zero] at hd
  exact absurd heps (not_lt.mpr hd)

/-- Witness for C4 on the rationals: with epsilon `1/1000`, dividing
`(1, 2, 3, 4)` by `2` gives `(1/2, 2/2, 3/2, 4/2)`, and dividing by `0` gives
the default. -/
theorem safe_divide_with_default_spec_witness :
    (0 : ℚ) < 1 / 1000 ∧
    psmove_quaternion_safe_divide_with_default (1 / 1000 : ℚ) ⟨1, 2, 3, 4⟩ 0 ⟨0, 0, 0, 0⟩
      = ⟨0, 0, 0, 0⟩ ∧
    psmove_quaternion_safe_divide_with_default (1 / 1000 : ℚ) ⟨1, 2, 3, 4⟩ 2 ⟨0, 0, 0, 0⟩
      = ⟨1 / 2, 2 / 2, 3 / 2, 4 / 2⟩ :=
  ⟨by norm_num,
    (safe_divide_with_default_spec (1 / 1000 : ℚ) ⟨1, 2, 3, 4⟩ 2 ⟨0, 0, 0, 0⟩ (by norm_num)).1,
    ((safe_divide_with_default_spec (1 / 1000 : ℚ) ⟨1, 2, 3, 4⟩ 2 ⟨0, 0, 0, 0⟩
      (by norm_num)).2.2 (by norm_num)).2.2⟩

/-! ## Safe normalize -/

/-- C5: for a positive epsilon and a quaternion `q` whose Euclidean norm
`n = sqrt(w^2+x^2+y^2+z^2)` is not nearly zero,
`psmove_quaternion_normalize_with_default` returns `n` and replaces `q` by
`q / n`; the new quaternion has norm one, `n` times it is the original `q`,
and the result is the same for every default. -/
theorem normalize_with_default_nondegenerate (eps : ℝ) (q dflt : Quaternionf ℝ)
    (heps : 0 < eps)
    (hn : is_nearly_zero eps (Real.sqrt (q.w ^ 2 + q.x ^ 2 + q.y ^ 2 + q.z ^ 2)) = false) :
    (psmove_quaternion_normalize_with_default eps q dflt).1
      = Real.sqrt (q.w ^ 2 + q.x ^ 2 + q.y ^ 2 + q.z ^ 2) ∧
    (psmove_quaternion_normalize_with_default eps q dflt).2
      = ⟨q.w / Real.sqrt (q.w ^ 2 + q.x ^ 2 + q.y ^ 2 + q.z ^ 2),
         q.x / Real.sqrt (q.w ^ 2 + q.x ^ 2 + q.y ^ 2 + q.z ^ 2),
         q.y / Real.sqrt (q.w ^ 2 + q.x ^ 2 + q.y ^ 2 + q.z ^ 2),
         q.z / Real.sqrt (q.w ^ 2 + q.x ^ 2 + q.y ^ 2 + q.z ^ 2)⟩ ∧
    (psmove_quaternion_normalize_with_default eps q dflt).2.norm = 1 ∧
    (⟨(psmove_quaternion_normalize_with_default eps q dflt).1
          * (psmove_quaternion_normalize_with_default eps q dflt).2.w,
        (psmove_quaternion_normalize_with_default eps q dflt).1
          * (psmove_quaternion_normalize_with_default eps q dflt).2.x,
        (psmove_quaternion_normalize_with_default eps q dflt).1
          * (psmove_quaternion_normalize_with_default eps q dflt).2.y,
        (psmove_quaternion_normalize_with_default eps q dflt).1
          * (psmove_quaternion_normalize_with_default eps q dflt).2.z⟩ : Quaternionf ℝ) = q ∧
    ∀ other : Quaternionf ℝ,
      psmove_quaternion_normalize_with_default eps q other
        = psmove_quaternion_normalize_with_default eps q dflt := by
  have hsq : q.w ^ 2 + q.x ^ 2 + q.y ^ 2 + q.z ^ 2
      = q.x * q.x + q.y * q.y + q.z * q.z + q.w * q.w := by ring
  rw [hsq, ← q.norm_eq] at hn ⊢
  have hle : eps ≤ |q.norm| := (is_nearly_zero_eq_false_iff eps q.norm).mp hn
  rw [abs_of_nonneg q.norm_nonneg] at hle
  have hpos : 0 < q.norm := lt_of_lt_of_le heps hle
  have hle2 : eps ≤ |q.norm| := by rwa [abs_of_nonneg q.norm_nonneg]
  have key : ∀ other : Quaternionf ℝ,
      psmove_quaternion_normalize_with_default eps q other
        = (q.norm, ⟨q.w / q.norm, q.x / q.norm, q.y / q.norm, q.z / q.norm⟩) := by
    intro other
    simp only [psmove_quaternion_normalize_with_default]
    rw [safe_divide_of_not_nearly_zero eps q q.norm other hle2]
  rw [key dflt]
  refine ⟨rfl, rfl, ?_, ?_, fun other => key other⟩
  · show Real.sqrt _ = 1
    rw [Quaternionf.squaredNorm_div_norm q hpos, Real.sqrt_one]
  · rcases q with ⟨w, x, y, z⟩
    simp only [Quaternionf.mk.injEq]
    refine ⟨?_, ?_, ?_, ?_⟩ <;> field_simp

/-- Witness for C5: the quaternion `(0, 3, 4, 0)` has norm `5`. -/
theorem normalize_with_default_nondegenerate_witness :
    (0 : ℝ) < 1 / 1000 ∧
    (psmove_quaternion_normalize_with_default (1 / 1000 : ℝ) ⟨0, 3, 4, 0⟩ ⟨0, 0, 0, 0⟩).1
      = Real.sqrt ((0 : ℝ) ^ 2 + 3 ^ 2 + 4 ^ 2 + 0 ^ 2) ∧
    (psmove_quaternion_normalize_with_default (1 / 1000 : ℝ) ⟨0, 3, 4, 0⟩ ⟨0, 0, 0, 0⟩).2.norm
      = 1 := by
  have h5 : Real.sqrt ((0 : ℝ) ^ 2 + 3 ^ 2 + 4 ^ 2 + 0 ^ 2) = 5 := by
    rw [show ((0 : ℝ) ^ 2 + 3 ^ 2 + 4 ^ 2 + 0 ^ 2) = 5 ^ 2 by norm_num]
    exact Real.sqrt_sq (by norm_num)
  have hn : is_nearly_zero (1 / 1000 : ℝ)
      (Real.sqrt ((0 : ℝ) ^ 2 + 3 ^ 2 + 4 ^ 2 + 0 ^ 2)) = false := by
    rw [h5, is_nearly_zero_eq_false_iff]
    norm_num
  have h := normalize_with_default_nondegenerate (1 / 1000) ⟨0, 3, 4, 0⟩ ⟨0, 0, 0, 0⟩
    (by norm_num) hn
  exact ⟨by norm_num, h.1, h.2.2.1⟩

/-- C6: for a positive epsilon, `psmove_quaternion_normalize_with_default`
applied to the zero quaternion returns magnitude `0` and leaves the in/out
quaternion equal to the default; and for every input quaternion, whenever the
returned magnitude is nearly zero the in/out quaternion is exactly the
default. -/
theorem normalize_with_default_degenerate (eps : ℝ) (dflt : Quaternionf ℝ) (heps : 0 < eps) :
    psmove_quaternion_normalize_with_default eps ⟨0, 0, 0, 0⟩ dflt = (0, dflt) ∧
    ∀ q : Quaternionf ℝ,
      is_nearly_zero eps (psmove_quaternion_normalize_with_default eps q dflt).1 = true →
      (psmove_quaternion_normalize_with_default eps q dflt).2 = dflt := by
  constructor
  · have h0 : (⟨0, 0, 0, 0⟩ : Quaternionf ℝ).norm = 0 := by
      rw [Quaternionf.norm_eq]; simp
    simp only [psmove_quaternion_normalize_with_default, h0]
    rw [safe_divide_of_nearly_zero eps _ 0 dflt (by simpa using heps)]
  · intro q h
    exact safe_divide_of_nearly_zero eps q q.norm dflt
      ((is_nearly_zero_eq_true_iff eps q.norm).mp h)

/-- Witness for C6 with epsilon `1/1000` and the default `(1, 0, 0, 0)`. -/
theorem normalize_with_default_degenerate_witness :
    (0 : ℝ) < 1 / 1000 ∧
    psmove_quaternion_normalize_with_default (1 / 1000 : ℝ) ⟨0, 0, 0, 0⟩ ⟨1, 0, 0, 0⟩
      = (0, ⟨1, 0, 0, 0⟩) :=
  ⟨by norm_num,
    (normalize_with_default_degenerate (1 / 1000) ⟨1, 0, 0, 0⟩ (by norm_num)).1⟩

/-! ## Normalized linear interpolation -/

section Nlerp

/-- The componentwise blend `a (1 - u) + b u` built by
`psmove_quaternion_normalized_lerp` before it normalizes. -/
theorem normalized_lerp_eq (a b : Quaternionf ℝ) (u : ℝ) :
    psmove_quaternion_normalized_lerp a b u
      = (⟨a.w * (1 - u) + b.w * u, a.x * (1 - u) + b.x * u,
          a.y * (1 - u) + b.y * u, a.z * (1 - u) + b.z * u⟩ : Quaternionf ℝ).normalize := rfl

theorem normalized_lerp_zero (a b : Quaternionf ℝ) :
    psmove_quaternion_normalized_lerp a b 0 = a.normalize := by
  rw [normalized_lerp_eq]
  simp

theorem normalized_lerp_one (a b : Quaternionf ℝ) :
    psmove_quaternion_normalized_lerp a b 1 = b.normalize := by
  rw [normalized_lerp_eq]
  simp

theorem normalized_lerp_self (a : Quaternionf ℝ) (u : ℝ) :
    psmove_quaternion_normalized_lerp a a u = a.normalize := by
  rw [normalized_lerp_eq]
  congr 1
  rcases a with ⟨w, x, y, z⟩
  simp only [Quaternionf.mk.injEq]
  refine ⟨?_, ?_, ?_, ?_⟩ <;> ring

end Nlerp

/-- C7: for a non-zero `a`, `psmove_quaternion_normalized_lerp a b 0` is
`a / |a|`, and it is `a` itself when `a` has norm one; for a non-zero `b`,
`psmove_quaternion_normalized_lerp a b 1` is `b / |b|`, and it is `b` itself
when `b` has norm one. -/
theorem normalized_lerp_endpoints (a b : Quaternionf ℝ) :
    (a ≠ ⟨0, 0, 0, 0⟩ →
      psmove_quaternion_normalized_lerp a b 0
        = ⟨a.w / a.norm, a.x / a.norm, a.y / a.norm, a.z / a.norm⟩) ∧
    (a.norm = 1 → psmove_quaternion_normalized_lerp a b 0 = a) ∧
    (b ≠ ⟨0, 0, 0, 0⟩ →
      psmove_quaternion_normalized_lerp a b 1
        = ⟨b.w / b.norm, b.x / b.norm, b.y / b.norm, b.z / b.norm⟩) ∧
    (b.norm = 1 → psmove_quaternion_normalized_lerp a b 1 = b) := by
  refine ⟨fun h => ?_, fun h => ?_, fun h => ?_, fun h => ?_⟩
  · rw [normalized_lerp_zero, a.normalize_of_pos (a.squaredNorm_pos_of_ne h)]
  · rw [normalized_lerp_zero, a.normalize_of_norm_eq_one h]
  · rw [normalized_lerp_one, b.normalize_of_pos (b.squaredNorm_pos_of_ne h)]
  · rw [normalized_lerp_one, b.normalize_of_norm_eq_one h]

/-- Witness for C7: from `a = (0, 3, 4, 0)` to `b = (0, 0, 0, 1)`. -/
theorem normalized_lerp_endpoints_witness :
    psmove_quaternion_normalized_lerp (⟨0, 3, 4, 0⟩ : Quaternionf ℝ) ⟨0, 0, 0, 1⟩ 0
      = ⟨0 / (⟨0, 3, 4, 0⟩ : Quaternionf ℝ).norm, 3 / (⟨0, 3, 4, 0⟩ : Quaternionf ℝ).norm,
         4 / (⟨0, 3, 4, 0⟩ : Quaternionf ℝ).norm, 0 / (⟨0, 3, 4, 0⟩ : Quaternionf ℝ).norm⟩ ∧
    psmove_quaternion_normalized_lerp (⟨0, 3, 4, 0⟩ : Quaternionf ℝ) ⟨0, 0, 0, 1⟩ 1
      = ⟨0, 0, 0, 1⟩ := by
  have h := normalized_lerp_endpoints (⟨0, 3, 4, 0⟩ : Quaternionf ℝ) ⟨0, 0, 0, 1⟩
  refine ⟨h.1 ?_, h.2.2.2 ?_⟩
  · intro h0
    have h3 := congrArg Quaternionf.x h0
    norm_num at h3
  · rw [Quaternionf.norm_eq]
    simp

/-- C8: for every non-zero quaternion `a` and every real blend factor `u`,
`psmove_quaternion_normalized_lerp a a u` is `a / |a|`; it is `a` itself when
`a` has norm one. -/
theorem normalized_lerp_same (a : Quaternionf ℝ) (u : ℝ) :
    (a ≠ ⟨0, 0, 0, 0⟩ →
      psmove_quaternion_normalized_lerp a a u
        = ⟨a.w / a.norm, a.x / a.norm, a.y / a.norm, a.z / a.norm⟩) ∧
    (a.norm = 1 → psmove_quaternion_normalized_lerp a a u = a) := by
  refine ⟨fun h => ?_, fun h => ?_⟩
  · rw [normalized_lerp_self, a.normalize_of_pos (a.squaredNorm_pos_of_ne h)]
  · rw [normalized_lerp_self, a.normalize_of_norm_eq_one h]

/-- Witness for C8: the unit quaternion `(0, 1, 0, 0)` with blend factor `7`,
outside `[0, 1]`. -/
theorem normalized_lerp_same_witness :
    psmove_quaternion_normalized_lerp (⟨0, 1, 0, 0⟩ : Quaternionf ℝ) ⟨0, 1, 0, 0⟩ 7
      = ⟨0, 1, 0, 0⟩ := by
  refine (normalized_lerp_same (⟨0, 1, 0, 0⟩ : Quaternionf ℝ) 7).2 ?_
  rw [Quaternionf.norm_eq]
  simp

/-- C9: whenever the componentwise blend `a (1 - u) + b u` is not the zero
quaternion, `psmove_quaternion_normalized_lerp a b u` is that blend divided by
its Euclidean norm, and its squared norm and its norm are exactly one. -/
theorem normalized_lerp_unit (a b : Quaternionf ℝ) (u : ℝ)
    (h : (⟨a.w * (1 - u) + b.w * u, a.x * (1 - u) + b.x * u,
          a.y * (1 - u) + b.y * u, a.z * (1 - u) + b.z * u⟩ : Quaternionf ℝ)
          ≠ ⟨0, 0, 0, 0⟩) :
    psmove_quaternion_normalized_lerp a b u
      = ⟨(a.w * (1 - u) + b.w * u)
            / Real.sqrt ((a.x * (1 - u) + b.x * u) ^ 2 + (a.y * (1 - u) + b.y * u) ^ 2
                + (a.z * (1 - u) + b.z * u) ^ 2 + (a.w * (1 - u) + b.w * u) ^ 2),
         (a.x * (1 - u) + b.x * u)
            / Real.sqrt ((a.x * (1 - u) + b.x * u) ^ 2 + (a.y * (1 - u) + b.y * u) ^ 2
                + (a.z * (1 - u) + b.z * u) ^ 2 + (a.w * (1 - u) + b.w * u) ^ 2),
         (a.y * (1 - u) + b.y * u)
            / Real.sqrt ((a.x * (1 - u) + b.x * u) ^ 2 + (a.y * (1 - u) + b.y * u) ^ 2
                + (a.z * (1 - u) + b.z * u) ^ 2 + (a.w * (1 - u) + b.w * u) ^ 2),
         (a.z * (1 - u) + b.z * u)
            / Real.sqrt ((a.x * (1 - u) + b.x * u) ^ 2 + (a.y * (1 - u) + b.y * u) ^ 2
                + (a.z * (1 - u) + b.z * u) ^ 2 + (a.w * (1 - u) + b.w * u) ^ 2)⟩ ∧
    (psmove_quaternion_normalized_lerp a b u).squaredNorm = 1 ∧
    (psmove_quaternion_normalized_lerp a b u).norm = 1 := by
  have hpos := Quaternionf.squaredNorm_pos_of_ne _ h
  have hnpos := Quaternionf.norm_pos_of_ne _ h
  have hsq := Quaternionf.squaredNorm_div_norm _ hnpos
  rw [normalized_lerp_eq, Quaternionf.normalize_of_pos _ hpos]
  refine ⟨?_, hsq, ?_⟩
  · simp only [Quaternionf.norm_eq, sq]
  · show Real.sqrt _ = 1
    rw [hsq, Real.sqrt_one]

/-- Witness for C9: halfway between `(1, 0, 0, 0)` and `(0, 1, 0, 0)`. -/
theorem normalized_lerp_unit_witness :
    (psmove_quaternion_normalized_lerp (⟨1, 0, 0, 0⟩ : Quaternionf ℝ) ⟨0, 1, 0, 0⟩
      (1 / 2)).norm = 1 := by
  refine (normalized_lerp_unit (⟨1, 0, 0, 0⟩ : Quaternionf ℝ) ⟨0, 1, 0, 0⟩ (1 / 2) ?_).2.2
  intro h0
  have h1 := congrArg Quaternionf.w h0
  norm_num at h1

/-! ## Euler angles: the gimbal-lock poles -/

/-- C10, as amended: for every scalar field and every math library, if
`test = q.x*q.y + q.z*q.w` exceeds the value `8371831 / 16777216` of the
single-precision literal `0.499f` then `psmove_quaternion_get_yaw_pitch_roll`
outputs pitch `0`, roll `k_real_pi / 2` and yaw `2 * atan2f q.x q.w`, and if
`test` is below the negative of that value it outputs pitch `0`, roll
`-k_real_pi / 2` and yaw `-2 * atan2f q.x q.w`.  The outputs hold whatever
`asinf` is and involve `atan2f` at `(q.x, q.w)` only, so the closed-form
branch is not used. -/
theorem get_yaw_pitch_roll_poles {α : Type} [LinearOrderedField α] [MathLib α]
    (q : Quaternionf α) :
    (q.x * q.y + q.z * q.w > 8371831 / 16777216 →
      psmove_quaternion_get_yaw_pitch_roll q
        = { out_yaw_radians := 2 * atan2f q.x q.w
            out_pitch_radians := 0
            out_roll_radians := k_real_pi / 2 }) ∧
    (q.x * q.y + q.z * q.w < -(8371831 / 16777216) →
      psmove_quaternion_get_yaw_pitch_roll q
        = { out_yaw_radians := -2 * atan2f q.x q.w
            out_pitch_radians := 0
            out_roll_radians := -k_real_pi / 2 }) := by
  constructor
  · intro h
    simp only [psmove_quaternion_get_yaw_pitch_roll, if_pos h]
  · intro h
    have h2 : ¬ (q.x * q.y + q.z * q.w > 8371831 / 16777216) := by
      intro h3
      have : (-(8371831 / 16777216) : α) < 8371831 / 16777216 := by norm_num
      exact absurd (lt_trans h3 (lt_trans h this)) (lt_irrefl _)
    simp only [psmove_quaternion_get_yaw_pitch_roll, if_neg h2, if_pos h]

/-- Witness for C10 on the real numbers: at `q = (w, x, y, z) = (1, 0, 0, 1)`
the test value is `1` and the outputs are yaw `2 * arg 1`, pitch `0`, roll
`π / 2`; at `q = (1, 0, 0, -1)` the test value is `-1` and the roll is
`-π / 2`. -/
theorem get_yaw_pitch_roll_poles_witness :
    psmove_quaternion_get_yaw_pitch_roll (⟨1, 0, 0, 1⟩ : Quaternionf ℝ)
      = { out_yaw_radians := 2 * Complex.arg ⟨1, 0⟩
          out_pitch_radians := 0
          out_roll_radians := Real.pi / 2 } ∧
    psmove_quaternion_get_yaw_pitch_roll (⟨1, 0, 0, -1⟩ : Quaternionf ℝ)
      = { out_yaw_radians := -2 * Complex.arg ⟨1, 0⟩
          out_pitch_radians := 0
          out_roll_radians := -Real.pi / 2 } :=
  ⟨(get_yaw_pitch_roll_poles (⟨1, 0, 0, 1⟩ : Quaternionf ℝ)).1 (by norm_num),
    (get_yaw_pitch_roll_poles (⟨1, 0, 0, -1⟩ : Quaternionf ℝ)).2 (by norm_num)⟩

/-! ## Angle-axis construction and clockwise rotation -/

section AngleAxis

theorem cosf_real (x : ℝ) : cosf x = Real.cos x := rfl

theorem sinf_real (x : ℝ) : sinf x = Real.sin x := rfl

theorem angle_axis_eq (theta : ℝ) (n : Vector3f ℝ) :
    psmove_quaternion_angle_axis theta n
      = ⟨Real.cos (1 / 2 * theta), Real.sin (1 / 2 * theta) * n.x,
         Real.sin (1 / 2 * theta) * n.y, Real.sin (1 / 2 * theta) * n.z⟩ := rfl

theorem cos_eq_half (theta : ℝ) :
    Real.cos theta = 2 * Real.cos (1 / 2 * theta) ^ 2 - 1 := by
  rw [← Real.cos_two_mul]
  congr 1
  ring

theorem sin_eq_half (theta : ℝ) :
    Real.sin theta = 2 * Real.sin (1 / 2 * theta) * Real.cos (1 / 2 * theta) := by
  rw [← Real.sin_two_mul]
  congr 1
  ring

/-- The clockwise rotation undoes the counterclockwise one. -/
theorem counterclockwise_clockwise (theta : ℝ) (n v : Vector3f ℝ)
    (hn : n.x ^ 2 + n.y ^ 2 + n.z ^ 2 = 1) :
    counterclockwise_rotation theta n (clockwise_rotation theta n v) = v := by
  have hcs : Real.cos theta ^ 2 + Real.sin theta ^ 2 = 1 := Real.cos_sq_add_sin_sq theta
  rcases n with ⟨nx, ny, nz⟩
  rcases v with ⟨vx, vy, vz⟩
  simp only [counterclockwise_rotation, clockwise_rotation, Vector3f.add, Vector3f.smul,
    Vector3f.cross, Vector3f.dot, cosf_real, sinf_real, Vector3f.mk.injEq] at hn ⊢
  refine ⟨?_, ?_, ?_⟩
  · linear_combination
      (vx - nx * (nx * vx + ny * vy + nz * vz)) * hcs
        + (Real.sin theta ^ 2 * vx
            + (1 - Real.cos theta) ^ 2 * nx * (nx * vx + ny * vy + nz * vz)) * hn
  · linear_combination
      (vy - ny * (nx * vx + ny * vy + nz * vz)) * hcs
        + (Real.sin theta ^ 2 * vy
            + (1 - Real.cos theta) ^ 2 * ny * (nx * vx + ny * vy + nz * vz)) * hn
  · linear_combination
      (vz - nz * (nx * vx + ny * vy + nz * vz)) * hcs
        + (Real.sin theta ^ 2 * vz
            + (1 - Real.cos theta) ^ 2 * nz * (nx * vx + ny * vy + nz * vz)) * hn

end AngleAxis

/-- C2: for every unit axis `n`, every angle `theta` and every vector `v`, the
quaternion `psmove_quaternion_angle_axis theta n` has norm one and
`psmove_vector3f_clockwise_rotate` applied with it to `v` is
`v cos(theta) - (n x v) sin(theta) + n (n.v) (1 - cos(theta))`, the clockwise
rotation, which the right-handed counterclockwise rotation by `theta` about
`n` takes back to `v`. -/
theorem clockwise_rotate_angle_axis (theta : ℝ) (n v : Vector3f ℝ)
    (hn : n.x ^ 2 + n.y ^ 2 + n.z ^ 2 = 1) :
    (psmove_quaternion_angle_axis theta n).squaredNorm = 1 ∧
    psmove_vector3f_clockwise_rotate (psmove_quaternion_angle_axis theta n) v
      = clockwise_rotation theta n v ∧
    counterclockwise_rotation theta n
      (psmove_vector3f_clockwise_rotate (psmove_quaternion_angle_axis theta n) v) = v := by
  have hcs : Real.cos (1 / 2 * theta) ^ 2 + Real.sin (1 / 2 * theta) ^ 2 = 1 :=
    Real.cos_sq_add_sin_sq _
  have hrot : psmove_vector3f_clockwise_rotate (psmove_quaternion_angle_axis theta n) v
      = clockwise_rotation theta n v := by
    rw [angle_axis_eq]
    rcases n with ⟨nx, ny, nz⟩
    rcases v with ⟨vx, vy, vz⟩
    simp only [psmove_vector3f_clockwise_rotate, Quaternionf.conjugate,
      Quaternionf._transformVector, Quaternionf.vec, clockwise_rotation, Vector3f.add,
      Vector3f.smul, Vector3f.cross, Vector3f.dot, cosf_real, sinf_real,
      Vector3f.mk.injEq] at hn ⊢
    rw [cos_eq_half theta, sin_eq_half theta]
    refine ⟨?_, ?_, ?_⟩
    · linear_combination
        (-2 * vx + 2 * nx * (nx * vx + ny * vy + nz * vz)) * hcs
          - 2 * Real.sin (1 / 2 * theta) ^ 2 * vx * hn
    · linear_combination
        (-2 * vy + 2 * ny * (nx * vx + ny * vy + nz * vz)) * hcs
          - 2 * Real.sin (1 / 2 * theta) ^ 2 * vy * hn
    · linear_combination
        (-2 * vz + 2 * nz * (nx * vx + ny * vy + nz * vz)) * hcs
          - 2 * Real.sin (1 / 2 * theta) ^ 2 * vz * hn
  refine ⟨?_, hrot, ?_⟩
  · rw [angle_axis_eq, Quaternionf.squaredNorm_eq]
    linear_combination hcs + Real.sin (1 / 2 * theta) ^ 2 * hn
  · rw [hrot]
    exact counterclockwise_clockwise theta n v hn

/-- Witness for C2: about the axis `(0, 0, 1)`, the angle `π / 2` maps
`(1, 0, 0)` to `(0, -1, 0)`. -/
theorem clockwise_rotate_angle_axis_witness :
    psmove_vector3f_clockwise_rotate
      (psmove_quaternion_angle_axis (Real.pi / 2) (⟨0, 0, 1⟩ : Vector3f ℝ)) ⟨1, 0, 0⟩
      = ⟨0, -1, 0⟩ := by
  rw [(clockwise_rotate_angle_axis (Real.pi / 2) ⟨0, 0, 1⟩ ⟨1, 0, 0⟩ (by norm_num)).2.1]
  simp [clockwise_rotation, Vector3f.add, Vector3f.smul, Vector3f.cross, Vector3f.dot,
    cosf_real, sinf_real]

/-! ## Matrix to quaternion: the four branches of the extraction -/

section OfMatrix

theorem sqrt_real (x : ℝ) : MathLib.sqrt x = Real.sqrt x := rfl

theorem ofMatrix_of_trace_pos (m : Matrix3f ℝ) (h : m.trace > 0) :
    Quaternionf.ofMatrix m
      = ⟨1 / 2 * Real.sqrt (m.trace + 1),
         (m.m21 - m.m12) * (1 / 2 / Real.sqrt (m.trace + 1)),
         (m.m02 - m.m20) * (1 / 2 / Real.sqrt (m.trace + 1)),
         (m.m10 - m.m01) * (1 / 2 / Real.sqrt (m.trace + 1))⟩ := by
  simp only [Quaternionf.ofMatrix, if_pos h, Matrix3f.coeff, sqrt_real]

theorem ofMatrix_of_x_largest (m : Matrix3f ℝ) (h : ¬ m.trace > 0)
    (h1 : ¬ m.m11 > m.m00) (h2 : ¬ m.m22 > m.m00) :
    Quaternionf.ofMatrix m
      = ⟨(m.m21 - m.m12) * (1 / 2 / Real.sqrt (m.m00 - m.m11 - m.m22 + 1)),
         1 / 2 * Real.sqrt (m.m00 - m.m11 - m.m22 + 1),
         (m.m10 + m.m01) * (1 / 2 / Real.sqrt (m.m00 - m.m11 - m.m22 + 1)),
         (m.m20 + m.m02) * (1 / 2 / Real.sqrt (m.m00 - m.m11 - m.m22 + 1))⟩ := by
  simp [Quaternionf.ofMatrix, if_neg h, Matrix3f.coeff, sqrt_real, if_neg h1, if_neg h2]

theorem ofMatrix_of_y_largest (m : Matrix3f ℝ) (h : ¬ m.trace > 0)
    (h1 : m.m11 > m.m00) (h2 : ¬ m.m22 > m.m11) :
    Quaternionf.ofMatrix m
      = ⟨(m.m02 - m.m20) * (1 / 2 / Real.sqrt (m.m11 - m.m22 - m.m00 + 1)),
         (m.m01 + m.m10) * (1 / 2 / Real.sqrt (m.m11 - m.m22 - m.m00 + 1)),
         1 / 2 * Real.sqrt (m.m11 - m.m22 - m.m00 + 1),
         (m.m21 + m.m12) * (1 / 2 / Real.sqrt (m.m11 - m.m22 - m.m00 + 1))⟩ := by
  simp [Quaternionf.ofMatrix, if_neg h, Matrix3f.coeff, sqrt_real, if_pos h1, if_neg h2]

theorem ofMatrix_of_z_largest (m : Matrix3f ℝ) (h : ¬ m.trace > 0)
    (h2 : m.m22 > (if m.m11 > m.m00 then m.m11 else m.m00)) :
    Quaternionf.ofMatrix m
      = ⟨(m.m10 - m.m01) * (1 / 2 / Real.sqrt (m.m22 - m.m00 - m.m11 + 1)),
         (m.m02 + m.m20) * (1 / 2 / Real.sqrt (m.m22 - m.m00 - m.m11 + 1)),
         (m.m12 + m.m21) * (1 / 2 / Real.sqrt (m.m22 - m.m00 - m.m11 + 1)),
         1 / 2 * Real.sqrt (m.m22 - m.m00 - m.m11 + 1)⟩ := by
  by_cases h1 : m.m11 > m.m00
  · rw [if_pos h1] at h2
    simp [Quaternionf.ofMatrix, if_neg h, Matrix3f.coeff, sqrt_real, if_pos h1, if_pos h2]
  · rw [if_neg h1] at h2
    simp [Quaternionf.ofMatrix, if_neg h, Matrix3f.coeff, sqrt_real, if_neg h1, if_pos h2]

end OfMatrix

/-! ## Rotation matrices -/

section Rotation

theorem Matrix3f.IsRotation.relations {m : Matrix3f ℝ} (h : m.IsRotation) :
    RotationRelations m := by
  rcases m with ⟨a00, a01, a02, a10, a11, a12, a20, a21, a22⟩
  obtain ⟨horth, hdet⟩ := h
  simp only [Matrix3f.mul, Matrix3f.transpose, Matrix3f.identity, Matrix3f.mk.injEq] at horth
  simp only [Matrix3f.determinant] at hdet
  obtain ⟨r00, r01, r02, -, r11, r12, -, -, r22⟩ := horth
  have k00 : a11 * a22 - a12 * a21 = a00 := by
    linear_combination a00 * hdet - (a11 * a22 - a12 * a21) * r00
      - (a21 * a02 - a22 * a01) * r01 - (a01 * a12 - a02 * a11) * r02
  have k01 : a12 * a20 - a10 * a22 = a01 := by
    linear_combination a01 * hdet - (a12 * a20 - a10 * a22) * r00
      - (a22 * a00 - a20 * a02) * r01 - (a02 * a10 - a00 * a12) * r02
  have k02 : a10 * a21 - a11 * a20 = a02 := by
    linear_combination a02 * hdet - (a10 * a21 - a11 * a20) * r00
      - (a20 * a01 - a21 * a00) * r01 - (a00 * a11 - a01 * a10) * r02
  have k10 : a21 * a02 - a22 * a01 = a10 := by
    linear_combination a10 * hdet - (a11 * a22 - a12 * a21) * r01
      - (a21 * a02 - a22 * a01) * r11 - (a01 * a12 - a02 * a11) * r12
  have k11 : a22 * a00 - a20 * a02 = a11 := by
    linear_combination a11 * hdet - (a12 * a20 - a10 * a22) * r01
      - (a22 * a00 - a20 * a02) * r11 - (a02 * a10 - a00 * a12) * r12
  have k12 : a20 * a01 - a21 * a00 = a12 := by
    linear_combination a12 * hdet - (a10 * a21 - a11 * a20) * r01
      - (a20 * a01 - a21 * a00) * r11 - (a00 * a11 - a01 * a10) * r12
  have k20 : a01 * a12 - a02 * a11 = a20 := by
    linear_combination a20 * hdet - (a11 * a22 - a12 * a21) * r02
      - (a21 * a02 - a22 * a01) * r12 - (a01 * a12 - a02 * a11) * r22
  have k21 : a02 * a10 - a00 * a12 = a21 := by
    linear_combination a21 * hdet - (a12 * a20 - a10 * a22) * r02
      - (a22 * a00 - a20 * a02) * r12 - (a02 * a10 - a00 * a12) * r22
  have k22 : a00 * a11 - a01 * a10 = a22 := by
    linear_combination a22 * hdet - (a10 * a21 - a11 * a20) * r02
      - (a20 * a01 - a21 * a00) * r12 - (a00 * a11 - a01 * a10) * r22
  have c00 : a00 * a00 + a10 * a10 + a20 * a20 = 1 := by
    linear_combination hdet - a00 * k00 - a10 * k10 - a20 * k20
  have c01 : a00 * a01 + a10 * a11 + a20 * a21 = 0 := by
    linear_combination -a00 * k01 - a10 * k11 - a20 * k21
  have c02 : a00 * a02 + a10 * a12 + a20 * a22 = 0 := by
    linear_combination -a00 * k02 - a10 * k12 - a20 * k22
  have c11 : a01 * a01 + a11 * a11 + a21 * a21 = 1 := by
    linear_combination hdet - a01 * k01 - a11 * k11 - a21 * k21
  have c12 : a01 * a02 + a11 * a12 + a21 * a22 = 0 := by
    linear_combination -a01 * k02 - a11 * k12 - a21 * k22
  have c22 : a02 * a02 + a12 * a12 + a22 * a22 = 1 := by
    linear_combination hdet - a02 * k02 - a12 * k12 - a22 * k22
  exact ⟨r00, r11, r22, r01, r02, r12, k00, k01, k02, k10, k11, k12, k20, k21, k22,
    c00, c11, c22, c01, c02, c12⟩

theorem pivot_mul (D N : ℝ) (hD : 0 < D) :
    1 / 2 * Real.sqrt D * (N * (1 / 2 / Real.sqrt D)) = N / 4 := by
  have hs : Real.sqrt D ≠ 0 := (Real.sqrt_pos.mpr hD).ne'
  field_simp
  ring

theorem mul_pivot (D N : ℝ) (hD : 0 < D) :
    N * (1 / 2 / Real.sqrt D) * (1 / 2 * Real.sqrt D) = N / 4 := by
  rw [mul_comm]
  exact pivot_mul D N hD

theorem pivot_sq (D : ℝ) (hD : 0 < D) :
    1 / 2 * Real.sqrt D * (1 / 2 * Real.sqrt D) = D / 4 := by
  have hs : Real.sqrt D * Real.sqrt D = D := Real.mul_self_sqrt hD.le
  linear_combination (1 / 4 : ℝ) * hs

theorem pair_mul (D N₁ N₂ M : ℝ) (hD : 0 < D) (h : N₁ * N₂ = D * M) :
    N₁ * (1 / 2 / Real.sqrt D) * (N₂ * (1 / 2 / Real.sqrt D)) = M / 4 := by
  have hs : Real.sqrt D ≠ 0 := (Real.sqrt_pos.mpr hD).ne'
  have hss : Real.sqrt D * Real.sqrt D = D := Real.mul_self_sqrt hD.le
  field_simp
  linear_combination (4 : ℝ) * h - 4 * M * hss

/-- A quaternion whose pairwise products are the Shoemake combinations of the
coefficients of `m` has `m` as its rotation matrix. -/
theorem toRotationMatrix_eq_of_products (q : Quaternionf ℝ) (m : Matrix3f ℝ)
    (hxx : q.x * q.x = (1 + m.m00 - m.m11 - m.m22) / 4)
    (hyy : q.y * q.y = (1 - m.m00 + m.m11 - m.m22) / 4)
    (hzz : q.z * q.z = (1 - m.m00 - m.m11 + m.m22) / 4)
    (hxy : q.x * q.y = (m.m01 + m.m10) / 4)
    (hxz : q.x * q.z = (m.m02 + m.m20) / 4)
    (hyz : q.y * q.z = (m.m12 + m.m21) / 4)
    (hwx : q.w * q.x = (m.m21 - m.m12) / 4)
    (hwy : q.w * q.y = (m.m02 - m.m20) / 4)
    (hwz : q.w * q.z = (m.m10 - m.m01) / 4) :
    q.toRotationMatrix = m := by
  rcases q with ⟨w, x, y, z⟩
  rcases m with ⟨a00, a01, a02, a10, a11, a12, a20, a21, a22⟩
  simp only [Quaternionf.toRotationMatrix, Matrix3f.mk.injEq] at *
  refine ⟨?_, ?_, ?_, ?_, ?_, ?_, ?_, ?_, ?_⟩
  · linear_combination -2 * hyy - 2 * hzz
  · linear_combination 2 * hxy - 2 * hwz
  · linear_combination 2 * hxz + 2 * hwy
  · linear_combination 2 * hxy + 2 * hwz
  · linear_combination -2 * hxx - 2 * hzz
  · linear_combination 2 * hyz - 2 * hwx
  · linear_combination 2 * hxz - 2 * hwy
  · linear_combination 2 * hyz + 2 * hwx
  · linear_combination -2 * hxx - 2 * hyy

/-- The rotation matrix of the quaternion extracted from a rotation matrix is
that matrix, in each of the four branches of the extraction. -/
theorem toRotationMatrix_ofMatrix (m : Matrix3f ℝ) (hm : m.IsRotation) :
    (Quaternionf.ofMatrix m).toRotationMatrix = m := by
  obtain ⟨r00, r11, r22, r01, r02, r12, k00, k01, k02, k10, k11, k12, k20, k21, k22,
    c00, c11, c22, c01, c02, c12⟩ := hm.relations
  by_cases h : m.trace > 0
  · rw [ofMatrix_of_trace_pos m h]
    have hD : 0 < m.trace + 1 := by linarith
    simp only [Matrix3f.trace] at hD ⊢
    apply toRotationMatrix_eq_of_products <;> dsimp only [Matrix3f.trace]
    all_goals first
      | exact (pivot_sq _ hD).trans (by ring)
      | exact (pivot_mul _ _ hD).trans (by ring)
      | exact (mul_pivot _ _ hD).trans (by ring)
      | exact pair_mul _ _ _ _ hD (by linarith [r00, r11, r22, r01, r02, r12, k00, k01, k02, k10, k11, k12,
            k20, k21, k22, c00, c11, c22, c01, c02, c12])
  · have htr : m.m00 + m.m11 + m.m22 ≤ 0 := not_lt.mp h
    by_cases h2 : m.m22 > (if m.m11 > m.m00 then m.m11 else m.m00)
    · rw [ofMatrix_of_z_largest m h h2]
      have hD : 0 < m.m22 - m.m00 - m.m11 + 1 := by
        split_ifs at h2 <;> linarith
      apply toRotationMatrix_eq_of_products <;> dsimp only [Matrix3f.trace]
      all_goals first
        | exact (pivot_sq _ hD).trans (by ring)
        | exact (pivot_mul _ _ hD).trans (by ring)
        | exact (mul_pivot _ _ hD).trans (by ring)
        | exact pair_mul _ _ _ _ hD (by linarith [r00, r11, r22, r01, r02, r12, k00, k01, k02, k10, k11, k12,
                k20, k21, k22, c00, c11, c22, c01, c02, c12])
    · by_cases h1 : m.m11 > m.m00
      · rw [if_pos h1] at h2
        rw [ofMatrix_of_y_largest m h h1 h2]
        have hD : 0 < m.m11 - m.m22 - m.m00 + 1 := by linarith
        apply toRotationMatrix_eq_of_products <;> dsimp only [Matrix3f.trace]
        all_goals first
          | exact (pivot_sq _ hD).trans (by ring)
          | exact (pivot_mul _ _ hD).trans (by ring)
          | exact (mul_pivot _ _ hD).trans (by ring)
          | exact pair_mul _ _ _ _ hD (by linarith [r00, r11, r22, r01, r02, r12, k00, k01, k02, k10, k11, k12,
                    k20, k21, k22, c00, c11, c22, c01, c02, c12])
      · rw [if_neg h1] at h2
        rw [ofMatrix_of_x_largest m h h1 h2]
        have hD : 0 < m.m00 - m.m11 - m.m22 + 1 := by linarith
        apply toRotationMatrix_eq_of_products <;> dsimp only [Matrix3f.trace]
        all_goals first
          | exact (pivot_sq _ hD).trans (by ring)
          | exact (pivot_mul _ _ hD).trans (by ring)
          | exact (mul_pivot _ _ hD).trans (by ring)
          | exact pair_mul _ _ _ _ hD (by linarith [r00, r11, r22, r01, r02, r12, k00, k01, k02, k10, k11, k12,
                    k20, k21, k22, c00, c11, c22, c01, c02, c12])

end Rotation

theorem Quaternionf.conjugate_conjugate {α : Type} [LinearOrderedField α] (q : Quaternionf α) :
    q.conjugate.conjugate = q := by
  rcases q with ⟨w, x, y, z⟩
  simp [Quaternionf.conjugate]

/-- C3: for every valid rotation matrix `m` (orthonormal, determinant one),
`psmove_quaternion_to_clockwise_matrix3f` applied to
`psmove_matrix3f_to_clockwise_quaternion m` is `m`, whichever of the four
branches of the matrix-to-quaternion extraction is taken. -/
theorem matrix_round_trip (m : Matrix3f ℝ) (hm : m.IsRotation) :
    psmove_quaternion_to_clockwise_matrix3f (psmove_matrix3f_to_clockwise_quaternion m)
      = m := by
  simp only [psmove_quaternion_to_clockwise_matrix3f, psmove_matrix3f_to_clockwise_quaternion,
    Quaternionf.conjugate_conjugate]
  exact toRotationMatrix_ofMatrix m hm

/-- Witness for C3, one rotation matrix for each branch of the extraction: the
quarter turn about z (positive trace) and the half turns about x, y and z
(trace `-1`, largest diagonal coefficient in position 0, 1 and 2). -/
theorem matrix_round_trip_witness :
    psmove_quaternion_to_clockwise_matrix3f (psmove_matrix3f_to_clockwise_quaternion
        (⟨0, -1, 0, 1, 0, 0, 0, 0, 1⟩ : Matrix3f ℝ)) = ⟨0, -1, 0, 1, 0, 0, 0, 0, 1⟩ ∧
    psmove_quaternion_to_clockwise_matrix3f (psmove_matrix3f_to_clockwise_quaternion
        (⟨1, 0, 0, 0, -1, 0, 0, 0, -1⟩ : Matrix3f ℝ)) = ⟨1, 0, 0, 0, -1, 0, 0, 0, -1⟩ ∧
    psmove_quaternion_to_clockwise_matrix3f (psmove_matrix3f_to_clockwise_quaternion
        (⟨-1, 0, 0, 0, 1, 0, 0, 0, -1⟩ : Matrix3f ℝ)) = ⟨-1, 0, 0, 0, 1, 0, 0, 0, -1⟩ ∧
    psmove_quaternion_to_clockwise_matrix3f (psmove_matrix3f_to_clockwise_quaternion
        (⟨-1, 0, 0, 0, -1, 0, 0, 0, 1⟩ : Matrix3f ℝ)) = ⟨-1, 0, 0, 0, -1, 0, 0, 0, 1⟩ :=
  ⟨matrix_round_trip _ (by
      norm_num [Matrix3f.IsRotation, Matrix3f.mul, Matrix3f.transpose, Matrix3f.identity,
        Matrix3f.determinant]),
    matrix_round_trip _ (by
      norm_num [Matrix3f.IsRotation, Matrix3f.mul, Matrix3f.transpose, Matrix3f.identity,
        Matrix3f.determinant]),
    matrix_round_trip _ (by
      norm_num [Matrix3f.IsRotation, Matrix3f.mul, Matrix3f.transpose, Matrix3f.identity,
        Matrix3f.determinant]),
    matrix_round_trip _ (by
      norm_num [Matrix3f.IsRotation, Matrix3f.mul, Matrix3f.transpose, Matrix3f.identity,
        Matrix3f.determinant])⟩

/-! ## Euler angles: construction followed by extraction -/

section Euler

theorem asinf_real (x : ℝ) : asinf x = Real.arcsin x := rfl

theorem atan2f_real (y x : ℝ) : atan2f y x = Complex.arg ⟨x, y⟩ := rfl

theorem cos_eq_half_angle (t : ℝ) : Real.cos t = Real.cos (t / 2) ^ 2 - Real.sin (t / 2) ^ 2 := by
  have h := Real.cos_sq_add_sin_sq (t / 2)
  have h2 := Real.cos_two_mul (t / 2)
  rw [show 2 * (t / 2) = t by ring] at h2
  linear_combination h2 + h

theorem sin_eq_half_angle (t : ℝ) : Real.sin t = 2 * Real.sin (t / 2) * Real.cos (t / 2) := by
  rw [← Real.sin_two_mul]
  congr 1
  ring

/-- The argument of a point at angle `t` in `(-π, π]` and positive distance
`r` from the origin is `t`. -/
theorem atan2f_mul_sin_mul_cos (r t : ℝ) (hr : 0 < r) (h1 : -Real.pi < t) (h2 : t ≤ Real.pi) :
    atan2f (r * Real.sin t) (r * Real.cos t) = t := by
  rw [atan2f_real]
  have h := Complex.arg_mul_cos_add_sin_mul_I hr (Set.mem_Ioc.mpr ⟨h1, h2⟩)
  have hz : (⟨r * Real.cos t, r * Real.sin t⟩ : ℂ)
      = (r : ℂ) * (Complex.cos t + Complex.sin t * Complex.I) := by
    apply Complex.ext <;> simp [Complex.cos_ofReal_re, Complex.sin_ofReal_re]
  rw [hz]
  exact h

theorem yaw_pitch_roll_eq (yaw pitch roll : ℝ) :
    psmove_quaterion_yaw_pitch_roll yaw pitch roll
      = ⟨Real.cos (pitch / 2) * Real.cos (yaw / 2) * Real.cos (roll / 2)
            + Real.sin (pitch / 2) * Real.sin (yaw / 2) * Real.sin (roll / 2),
         Real.sin (pitch / 2) * Real.cos (yaw / 2) * Real.cos (roll / 2)
            - Real.cos (pitch / 2) * Real.sin (yaw / 2) * Real.sin (roll / 2),
         Real.cos (pitch / 2) * Real.sin (yaw / 2) * Real.cos (roll / 2)
            + Real.sin (pitch / 2) * Real.cos (yaw / 2) * Real.sin (roll / 2),
         Real.cos (pitch / 2) * Real.cos (yaw / 2) * Real.sin (roll / 2)
            - Real.sin (pitch / 2) * Real.sin (yaw / 2) * Real.cos (roll / 2)⟩ := rfl

/-- The test value of the extraction on a constructed quaternion is
`sin(roll) cos(yaw) / 2`. -/
theorem yaw_pitch_roll_test (yaw pitch roll : ℝ) :
    (psmove_quaterion_yaw_pitch_roll yaw pitch roll).x
        * (psmove_quaterion_yaw_pitch_roll yaw pitch roll).y
      + (psmove_quaterion_yaw_pitch_roll yaw pitch roll).z
        * (psmove_quaterion_yaw_pitch_roll yaw pitch roll).w
      = Real.sin roll * Real.cos yaw / 2 := by
  have hx := Real.cos_sq_add_sin_sq (pitch / 2)
  rw [yaw_pitch_roll_eq, sin_eq_half_angle roll, cos_eq_half_angle yaw]
  dsimp only
  linear_combination
    Real.sin (roll / 2) * Real.cos (roll / 2)
      * (Real.cos (yaw / 2) ^ 2 - Real.sin (yaw / 2) ^ 2) * hx

/-- The two arguments of the yaw `atan2f` on a constructed quaternion. -/
theorem yaw_pitch_roll_yaw_args (yaw pitch roll : ℝ) :
    2 * (psmove_quaterion_yaw_pitch_roll yaw pitch roll).y
          * (psmove_quaterion_yaw_pitch_roll yaw pitch roll).w
        - 2 * (psmove_quaterion_yaw_pitch_roll yaw pitch roll).x
          * (psmove_quaterion_yaw_pitch_roll yaw pitch roll).z
      = Real.sin yaw ∧
    1 - 2 * ((psmove_quaterion_yaw_pitch_roll yaw pitch roll).y
              * (psmove_quaterion_yaw_pitch_roll yaw pitch roll).y)
        - 2 * ((psmove_quaterion_yaw_pitch_roll yaw pitch roll).z
              * (psmove_quaterion_yaw_pitch_roll yaw pitch roll).z)
      = Real.cos roll * Real.cos yaw := by
  have hx := Real.cos_sq_add_sin_sq (pitch / 2)
  have hy := Real.cos_sq_add_sin_sq (yaw / 2)
  have hz := Real.cos_sq_add_sin_sq (roll / 2)
  rw [yaw_pitch_roll_eq, sin_eq_half_angle yaw, cos_eq_half_angle yaw, cos_eq_half_angle roll]
  dsimp only
  constructor
  · linear_combination
      2 * Real.sin (yaw / 2) * Real.cos (yaw / 2) * hx
        + 2 * Real.sin (yaw / 2) * Real.cos (yaw / 2)
          * (Real.cos (pitch / 2) ^ 2 + Real.sin (pitch / 2) ^ 2) * hz
  · linear_combination
      ((Real.cos (roll / 2) ^ 2 - Real.sin (roll / 2) ^ 2)
          * (Real.cos (yaw / 2) ^ 2 - Real.sin (yaw / 2) ^ 2) - 1) * hx
        - (Real.cos (pitch / 2) ^ 2 + Real.sin (pitch / 2) ^ 2) * hy
        - (Real.cos (pitch / 2) ^ 2 + Real.sin (pitch / 2) ^ 2)
          * (Real.cos (yaw / 2) ^ 2 + Real.sin (yaw / 2) ^ 2) * hz

/-- The two arguments of the pitch `atan2f` on a constructed quaternion. -/
theorem yaw_pitch_roll_pitch_args (yaw pitch roll : ℝ) :
    2 * (psmove_quaterion_yaw_pitch_roll yaw pitch roll).x * (psmove_quaterion_yaw_pitch_roll yaw pitch roll).w
        - 2 * (psmove_quaterion_yaw_pitch_roll yaw pitch roll).y * (psmove_quaterion_yaw_pitch_roll yaw pitch roll).z
      = Real.cos roll * Real.sin pitch - Real.sin roll * Real.sin yaw * Real.cos pitch ∧
    1 - 2 * ((psmove_quaterion_yaw_pitch_roll yaw pitch roll).x * (psmove_quaterion_yaw_pitch_roll yaw pitch roll).x)
        - 2 * ((psmove_quaterion_yaw_pitch_roll yaw pitch roll).z * (psmove_quaterion_yaw_pitch_roll yaw pitch roll).z)
      = Real.sin roll * Real.sin yaw * Real.sin pitch + Real.cos roll * Real.cos pitch := by
  have hx := Real.cos_sq_add_sin_sq (pitch / 2)
  have hy := Real.cos_sq_add_sin_sq (yaw / 2)
  have hz := Real.cos_sq_add_sin_sq (roll / 2)
  rw [yaw_pitch_roll_eq, sin_eq_half_angle yaw, sin_eq_half_angle roll, sin_eq_half_angle pitch,
    cos_eq_half_angle roll, cos_eq_half_angle pitch]
  dsimp only
  constructor
  · linear_combination
      (Real.cos (roll / 2) ^ 2 - Real.sin (roll / 2) ^ 2)
        * (2 * Real.sin (pitch / 2) * Real.cos (pitch / 2)) * hy
  · linear_combination
      (Real.cos (roll / 2) ^ 2 - Real.sin (roll / 2) ^ 2)
          * (Real.cos (pitch / 2) ^ 2 - Real.sin (pitch / 2) ^ 2) * hy
        - hx
        - (Real.cos (pitch / 2) ^ 2 + Real.sin (pitch / 2) ^ 2) * hy
        - (Real.cos (pitch / 2) ^ 2 + Real.sin (pitch / 2) ^ 2)
          * (Real.cos (yaw / 2) ^ 2 + Real.sin (yaw / 2) ^ 2) * hz

/-- The closed-form branch of the extraction, taken when the test value is
neither above `0.499f` nor below `-0.499f`. -/
theorem get_yaw_pitch_roll_closed_form {α : Type} [LinearOrderedField α] [MathLib α]
    (q : Quaternionf α) (h1 : ¬ (q.x * q.y + q.z * q.w > 8371831 / 16777216))
    (h2 : ¬ (q.x * q.y + q.z * q.w < -(8371831 / 16777216))) :
    psmove_quaternion_get_yaw_pitch_roll q
      = { out_yaw_radians :=
            atan2f (2 * q.y * q.w - 2 * q.x * q.z) (1 - 2 * (q.y * q.y) - 2 * (q.z * q.z))
          out_pitch_radians :=
            atan2f (2 * q.x * q.w - 2 * q.y * q.z) (1 - 2 * (q.x * q.x) - 2 * (q.z * q.z))
          out_roll_radians := asinf (2 * (q.x * q.y + q.z * q.w)) } := by
  simp only [psmove_quaternion_get_yaw_pitch_roll, if_neg h1, if_neg h2]

/-- The decimal `0.499` is below the single-precision literal `0.499f`. -/
theorem decimal_threshold_le {α : Type} [LinearOrderedField α] :
    (499 / 1000 : α) ≤ 8371831 / 16777216 := by
  norm_num

/-- The closed-form branch is taken in particular when the test value is
neither above the decimal `0.499` nor below `-0.499`. -/
theorem get_yaw_pitch_roll_closed_form_of_band {α : Type} [LinearOrderedField α] [MathLib α]
    (q : Quaternionf α) (h1 : ¬ (q.x * q.y + q.z * q.w > 499 / 1000))
    (h2 : ¬ (q.x * q.y + q.z * q.w < -(499 / 1000))) :
    psmove_quaternion_get_yaw_pitch_roll q
      = { out_yaw_radians :=
            atan2f (2 * q.y * q.w - 2 * q.x * q.z) (1 - 2 * (q.y * q.y) - 2 * (q.z * q.z))
          out_pitch_radians :=
            atan2f (2 * q.x * q.w - 2 * q.y * q.z) (1 - 2 * (q.x * q.x) - 2 * (q.z * q.z))
          out_roll_radians := asinf (2 * (q.x * q.y + q.z * q.w)) } := by
  have hle : (499 / 1000 : α) ≤ 8371831 / 16777216 := decimal_threshold_le
  refine get_yaw_pitch_roll_closed_form q ?_ ?_
  · exact fun h => h1 (lt_of_le_of_lt hle h)
  · exact fun h => h2 (lt_of_lt_of_le h (neg_le_neg hle))

/-- Extraction after construction, away from the gimbal-lock band: the three
outputs in terms of the three input angles. -/
theorem get_yaw_pitch_roll_constructed (yaw pitch roll : ℝ)
    (hband : |Real.sin roll * Real.cos yaw / 2| ≤ 499 / 1000) :
    psmove_quaternion_get_yaw_pitch_roll (psmove_quaterion_yaw_pitch_roll yaw pitch roll)
      = { out_yaw_radians := atan2f (Real.sin yaw) (Real.cos roll * Real.cos yaw)
          out_pitch_radians :=
            atan2f (Real.cos roll * Real.sin pitch - Real.sin roll * Real.sin yaw * Real.cos pitch)
              (Real.sin roll * Real.sin yaw * Real.sin pitch + Real.cos roll * Real.cos pitch)
          out_roll_radians := Real.arcsin (Real.sin roll * Real.cos yaw) } := by
  have htest := yaw_pitch_roll_test yaw pitch roll
  obtain ⟨hy1, hy2⟩ := yaw_pitch_roll_yaw_args yaw pitch roll
  obtain ⟨hp1, hp2⟩ := yaw_pitch_roll_pitch_args yaw pitch roll
  obtain ⟨hlo, hhi⟩ := abs_le.mp hband
  have h1 : ¬ ((psmove_quaterion_yaw_pitch_roll yaw pitch roll).x * (psmove_quaterion_yaw_pitch_roll yaw pitch roll).y + (psmove_quaterion_yaw_pitch_roll yaw pitch roll).z * (psmove_quaterion_yaw_pitch_roll yaw pitch roll).w > 499 / 1000) := by
    rw [htest]; exact not_lt.mpr hhi
  have h2 : ¬ ((psmove_quaterion_yaw_pitch_roll yaw pitch roll).x * (psmove_quaterion_yaw_pitch_roll yaw pitch roll).y + (psmove_quaterion_yaw_pitch_roll yaw pitch roll).z * (psmove_quaterion_yaw_pitch_roll yaw pitch roll).w < -(499 / 1000)) := by
    rw [htest]; exact not_lt.mpr hlo
  rw [get_yaw_pitch_roll_closed_form_of_band _ h1 h2, htest, hy1, hy2, hp1, hp2, asinf_real]
  congr 2
  ring

/-- With roll `0` the extraction returns the angles the quaternion was built
from. -/
theorem get_yaw_pitch_roll_of_roll_zero (yaw pitch : ℝ)
    (hy1 : -Real.pi < yaw) (hy2 : yaw < Real.pi)
    (hp1 : -Real.pi < pitch) (hp2 : pitch < Real.pi) :
    psmove_quaternion_get_yaw_pitch_roll (psmove_quaterion_yaw_pitch_roll yaw pitch 0)
      = { out_yaw_radians := yaw, out_pitch_radians := pitch, out_roll_radians := 0 } := by
  have hband : |Real.sin 0 * Real.cos yaw / 2| ≤ 499 / 1000 := by
    rw [Real.sin_zero]; norm_num
  rw [get_yaw_pitch_roll_constructed yaw pitch 0 hband, Real.sin_zero, Real.cos_zero]
  have h1 := atan2f_mul_sin_mul_cos 1 yaw one_pos hy1 hy2.le
  have h2 := atan2f_mul_sin_mul_cos 1 pitch one_pos hp1 hp2.le
  rw [one_mul, one_mul] at h1 h2
  simp only [one_mul, zero_mul, sub_zero, zero_add, Real.arcsin_zero, h1, h2]

/-- With yaw `0` and the roll inside `(-π/2, π/2)` and inside the closed-form
band, the extraction returns the angles the quaternion was built from. -/
theorem get_yaw_pitch_roll_of_yaw_zero (pitch roll : ℝ)
    (hp1 : -Real.pi < pitch) (hp2 : pitch < Real.pi)
    (hr1 : -(Real.pi / 2) < roll) (hr2 : roll < Real.pi / 2)
    (hband : |Real.sin roll * Real.cos 0 / 2| ≤ 499 / 1000) :
    psmove_quaternion_get_yaw_pitch_roll (psmove_quaterion_yaw_pitch_roll 0 pitch roll)
      = { out_yaw_radians := 0, out_pitch_radians := pitch, out_roll_radians := roll } := by
  have hc : 0 < Real.cos roll := Real.cos_pos_of_mem_Ioo ⟨hr1, hr2⟩
  rw [get_yaw_pitch_roll_constructed 0 pitch roll hband, Real.sin_zero, Real.cos_zero]
  have h1 := atan2f_mul_sin_mul_cos (Real.cos roll) 0 hc (by linarith [Real.pi_pos])
    Real.pi_pos.le
  have h2 := atan2f_mul_sin_mul_cos (Real.cos roll) pitch hc hp1 hp2.le
  rw [Real.sin_zero, Real.cos_zero, mul_zero, mul_one] at h1
  simp only [mul_one, mul_zero, zero_mul, sub_zero, zero_add, h1, h2,
    Real.arcsin_sin hr1.le hr2.le]

/-- Inside the stated ranges and the closed-form band, extraction after
construction returns the original angles exactly when the yaw or the roll is
zero. -/
theorem yaw_pitch_roll_round_trip_iff (yaw pitch roll : ℝ)
    (hy1 : -Real.pi < yaw) (hy2 : yaw < Real.pi)
    (hp1 : -Real.pi < pitch) (hp2 : pitch < Real.pi)
    (hr1 : -(Real.pi / 2) < roll) (hr2 : roll < Real.pi / 2)
    (hband : |(psmove_quaterion_yaw_pitch_roll yaw pitch roll).x
          * (psmove_quaterion_yaw_pitch_roll yaw pitch roll).y
        + (psmove_quaterion_yaw_pitch_roll yaw pitch roll).z
          * (psmove_quaterion_yaw_pitch_roll yaw pitch roll).w| ≤ 499 / 1000) :
    psmove_quaternion_get_yaw_pitch_roll (psmove_quaterion_yaw_pitch_roll yaw pitch roll)
        = { out_yaw_radians := yaw, out_pitch_radians := pitch, out_roll_radians := roll }
      ↔ yaw = 0 ∨ roll = 0 := by
  rw [yaw_pitch_roll_test] at hband
  constructor
  · intro h
    rw [get_yaw_pitch_roll_constructed yaw pitch roll hband] at h
    have hroll : Real.arcsin (Real.sin roll * Real.cos yaw) = roll :=
      congrArg YawPitchRoll.out_roll_radians h
    obtain ⟨hlo, hhi⟩ := abs_le.mp hband
    have hsin : Real.sin (Real.arcsin (Real.sin roll * Real.cos yaw))
        = Real.sin roll * Real.cos yaw :=
      Real.sin_arcsin (by linarith) (by linarith)
    rw [hroll] at hsin
    have hzero : Real.sin roll * (Real.cos yaw - 1) = 0 := by linear_combination -hsin
    rcases mul_eq_zero.mp hzero with hs | hc
    · right
      exact (Real.sin_eq_zero_iff_of_lt_of_lt (by linarith) (by linarith)).mp hs
    · left
      exact (Real.cos_eq_one_iff_of_lt_of_lt (by linarith) (by linarith)).mp (by linarith)
  · rintro (h | h)
    · subst h
      exact get_yaw_pitch_roll_of_yaw_zero pitch roll hp1 hp2 hr1 hr2 hband
    · subst h
      exact get_yaw_pitch_roll_of_roll_zero yaw pitch hy1 hy2 hp1 hp2

/-- The extraction is the exact inverse of the composition order
`qy(yaw) * qz(roll) * qx(pitch)`: on that product, inside the ranges of the
three angles, it returns yaw, pitch and roll. -/
theorem get_yaw_pitch_roll_of_mul_yzx (yaw pitch roll : ℝ)
    (hy1 : -Real.pi < yaw) (hy2 : yaw < Real.pi)
    (hp1 : -Real.pi < pitch) (hp2 : pitch < Real.pi)
    (hr1 : -(Real.pi / 2) < roll) (hr2 : roll < Real.pi / 2)
    (hband : |Real.sin roll / 2| ≤ 499 / 1000) :
    psmove_quaternion_get_yaw_pitch_roll (((qy yaw).mul (qz roll)).mul (qx pitch))
      = { out_yaw_radians := yaw, out_pitch_radians := pitch, out_roll_radians := roll } := by
  have h1 := Real.cos_sq_add_sin_sq (yaw / 2)
  have h2 := Real.cos_sq_add_sin_sq (roll / 2)
  have h3 := Real.cos_sq_add_sin_sq (pitch / 2)
  have hc : 0 < Real.cos roll := Real.cos_pos_of_mem_Ioo ⟨hr1, hr2⟩
  have hq : (((qy yaw).mul (qz roll)).mul (qx pitch))
      = ⟨Real.cos (yaw / 2) * Real.cos (roll / 2) * Real.cos (pitch / 2)
            - Real.sin (yaw / 2) * Real.sin (roll / 2) * Real.sin (pitch / 2),
         Real.sin (yaw / 2) * Real.sin (roll / 2) * Real.cos (pitch / 2)
            + Real.cos (yaw / 2) * Real.cos (roll / 2) * Real.sin (pitch / 2),
         Real.sin (yaw / 2) * Real.cos (roll / 2) * Real.cos (pitch / 2)
            + Real.cos (yaw / 2) * Real.sin (roll / 2) * Real.sin (pitch / 2),
         Real.cos (yaw / 2) * Real.sin (roll / 2) * Real.cos (pitch / 2)
            - Real.sin (yaw / 2) * Real.cos (roll / 2) * Real.sin (pitch / 2)⟩ := by
    simp only [qx, qy, qz, Quaternionf.mul, cosf_real, sinf_real, Quaternionf.mk.injEq]
    refine ⟨?_, ?_, ?_, ?_⟩ <;> ring
  have htest : (((qy yaw).mul (qz roll)).mul (qx pitch)).x * (((qy yaw).mul (qz roll)).mul (qx pitch)).y + (((qy yaw).mul (qz roll)).mul (qx pitch)).z * (((qy yaw).mul (qz roll)).mul (qx pitch)).w = Real.sin roll / 2 := by
    rw [hq, sin_eq_half_angle roll]
    dsimp only
    linear_combination
      Real.sin (roll / 2) * Real.cos (roll / 2) * h1
        + Real.sin (roll / 2) * Real.cos (roll / 2)
          * (Real.cos (yaw / 2) ^ 2 + Real.sin (yaw / 2) ^ 2) * h3
  have hya : 2 * (((qy yaw).mul (qz roll)).mul (qx pitch)).y * (((qy yaw).mul (qz roll)).mul (qx pitch)).w - 2 * (((qy yaw).mul (qz roll)).mul (qx pitch)).x * (((qy yaw).mul (qz roll)).mul (qx pitch)).z = Real.cos roll * Real.sin yaw := by
    rw [hq, sin_eq_half_angle yaw, cos_eq_half_angle roll]
    dsimp only
    linear_combination
      (Real.cos (roll / 2) ^ 2 - Real.sin (roll / 2) ^ 2)
        * (2 * Real.sin (yaw / 2) * Real.cos (yaw / 2)) * h3
  have hyb : 1 - 2 * ((((qy yaw).mul (qz roll)).mul (qx pitch)).y * (((qy yaw).mul (qz roll)).mul (qx pitch)).y) - 2 * ((((qy yaw).mul (qz roll)).mul (qx pitch)).z * (((qy yaw).mul (qz roll)).mul (qx pitch)).z) = Real.cos roll * Real.cos yaw := by
    rw [hq, cos_eq_half_angle yaw, cos_eq_half_angle roll]
    dsimp only
    linear_combination
      (Real.cos (roll / 2) ^ 2 - Real.sin (roll / 2) ^ 2)
          * (Real.cos (yaw / 2) ^ 2 - Real.sin (yaw / 2) ^ 2) * h3
        - h1 - (Real.cos (yaw / 2) ^ 2 + Real.sin (yaw / 2) ^ 2) * h2
        - (Real.cos (yaw / 2) ^ 2 + Real.sin (yaw / 2) ^ 2)
          * (Real.cos (roll / 2) ^ 2 + Real.sin (roll / 2) ^ 2) * h3
  have hpa : 2 * (((qy yaw).mul (qz roll)).mul (qx pitch)).x * (((qy yaw).mul (qz roll)).mul (qx pitch)).w - 2 * (((qy yaw).mul (qz roll)).mul (qx pitch)).y * (((qy yaw).mul (qz roll)).mul (qx pitch)).z = Real.cos roll * Real.sin pitch := by
    rw [hq, sin_eq_half_angle pitch, cos_eq_half_angle roll]
    dsimp only
    linear_combination
      (Real.cos (roll / 2) ^ 2 - Real.sin (roll / 2) ^ 2)
        * (2 * Real.sin (pitch / 2) * Real.cos (pitch / 2)) * h1
  have hpb : 1 - 2 * ((((qy yaw).mul (qz roll)).mul (qx pitch)).x * (((qy yaw).mul (qz roll)).mul (qx pitch)).x) - 2 * ((((qy yaw).mul (qz roll)).mul (qx pitch)).z * (((qy yaw).mul (qz roll)).mul (qx pitch)).z) = Real.cos roll * Real.cos pitch := by
    rw [hq, cos_eq_half_angle pitch, cos_eq_half_angle roll]
    dsimp only
    linear_combination
      (Real.cos (roll / 2) ^ 2 - Real.sin (roll / 2) ^ 2)
          * (Real.cos (pitch / 2) ^ 2 - Real.sin (pitch / 2) ^ 2) * h1
        - h1 - (Real.cos (yaw / 2) ^ 2 + Real.sin (yaw / 2) ^ 2) * h2
        - (Real.cos (yaw / 2) ^ 2 + Real.sin (yaw / 2) ^ 2)
          * (Real.cos (roll / 2) ^ 2 + Real.sin (roll / 2) ^ 2) * h3
  obtain ⟨hlo, hhi⟩ := abs_le.mp hband
  have hn1 : ¬ ((((qy yaw).mul (qz roll)).mul (qx pitch)).x * (((qy yaw).mul (qz roll)).mul (qx pitch)).y + (((qy yaw).mul (qz roll)).mul (qx pitch)).z * (((qy yaw).mul (qz roll)).mul (qx pitch)).w > 499 / 1000) := by
    rw [htest]; exact not_lt.mpr hhi
  have hn2 : ¬ ((((qy yaw).mul (qz roll)).mul (qx pitch)).x * (((qy yaw).mul (qz roll)).mul (qx pitch)).y + (((qy yaw).mul (qz roll)).mul (qx pitch)).z * (((qy yaw).mul (qz roll)).mul (qx pitch)).w < -(499 / 1000)) := by
    rw [htest]; exact not_lt.mpr hlo
  rw [get_yaw_pitch_roll_closed_form_of_band _ hn1 hn2, htest, hya, hyb, hpa, hpb, asinf_real,
    atan2f_mul_sin_mul_cos (Real.cos roll) yaw hc hy1 hy2.le,
    atan2f_mul_sin_mul_cos (Real.cos roll) pitch hc hp1 hp2.le,
    show 2 * (Real.sin roll / 2) = Real.sin roll by ring, Real.arcsin_sin hr1.le hr2.le]

end Euler

/-- C1, evaluated at yaw `π/2`, pitch `0`, roll `π/4`: the three angles lie in
the stated ranges and the constructed quaternion lies in the closed-form band
(its test value is `0`), yet `psmove_quaternion_get_yaw_pitch_roll` returns
yaw `π/2`, pitch `-π/4`, roll `0`, which is not the original triple. -/
theorem yaw_pitch_roll_round_trip_fails :
    (-Real.pi < Real.pi / 2 ∧ Real.pi / 2 < Real.pi) ∧
    (-Real.pi < (0 : ℝ) ∧ (0 : ℝ) < Real.pi) ∧
    (-(Real.pi / 2) < Real.pi / 4 ∧ Real.pi / 4 < Real.pi / 2) ∧
    |(psmove_quaterion_yaw_pitch_roll (Real.pi / 2) 0 (Real.pi / 4)).x
        * (psmove_quaterion_yaw_pitch_roll (Real.pi / 2) 0 (Real.pi / 4)).y
      + (psmove_quaterion_yaw_pitch_roll (Real.pi / 2) 0 (Real.pi / 4)).z
        * (psmove_quaterion_yaw_pitch_roll (Real.pi / 2) 0 (Real.pi / 4)).w| ≤ 499 / 1000 ∧
    psmove_quaternion_get_yaw_pitch_roll
        (psmove_quaterion_yaw_pitch_roll (Real.pi / 2) 0 (Real.pi / 4))
      = { out_yaw_radians := Real.pi / 2
          out_pitch_radians := -(Real.pi / 4)
          out_roll_radians := 0 } ∧
    psmove_quaternion_get_yaw_pitch_roll
        (psmove_quaterion_yaw_pitch_roll (Real.pi / 2) 0 (Real.pi / 4))
      ≠ { out_yaw_radians := Real.pi / 2
          out_pitch_radians := 0
          out_roll_radians := Real.pi / 4 } := by
  have hpi := Real.pi_pos
  have hband : |Real.sin (Real.pi / 4) * Real.cos (Real.pi / 2) / 2| ≤ 499 / 1000 := by
    rw [Real.cos_pi_div_two]
    norm_num
  have hyaw : atan2f (Real.sin (Real.pi / 2)) (Real.cos (Real.pi / 4) * Real.cos (Real.pi / 2))
      = Real.pi / 2 := by
    have h := atan2f_mul_sin_mul_cos 1 (Real.pi / 2) one_pos (by linarith) (by linarith)
    rw [one_mul, one_mul] at h
    rw [Real.cos_pi_div_two, mul_zero]
    rw [Real.cos_pi_div_two] at h
    exact h
  have hpitch :
      atan2f (Real.cos (Real.pi / 4) * Real.sin 0
          - Real.sin (Real.pi / 4) * Real.sin (Real.pi / 2) * Real.cos 0)
        (Real.sin (Real.pi / 4) * Real.sin (Real.pi / 2) * Real.sin 0
          + Real.cos (Real.pi / 4) * Real.cos 0) = -(Real.pi / 4) := by
    have h := atan2f_mul_sin_mul_cos 1 (-(Real.pi / 4)) one_pos (by linarith) (by linarith)
    rw [one_mul, one_mul, Real.sin_neg, Real.cos_neg] at h
    rw [Real.sin_zero, Real.cos_zero, Real.sin_pi_div_two]
    simpa using h
  have hroll : Real.arcsin (Real.sin (Real.pi / 4) * Real.cos (Real.pi / 2)) = 0 := by
    rw [Real.cos_pi_div_two, mul_zero, Real.arcsin_zero]
  have hget := get_yaw_pitch_roll_constructed (Real.pi / 2) 0 (Real.pi / 4) hband
  rw [hyaw, hpitch, hroll] at hget
  refine ⟨⟨by linarith, by linarith⟩, ⟨by linarith, hpi⟩, ⟨by linarith, by linarith⟩, ?_, hget, ?_⟩
  · rw [yaw_pitch_roll_test]
    exact hband
  · rw [hget]
    intro h
    have h0 := congrArg YawPitchRoll.out_roll_radians h
    dsimp only at h0
    linarith

/-! ## Identity rotation -/

/-- C11: for every 3-vector `v`, `psmove_vector3f_clockwise_rotate` applied
with the identity quaternion `(w, x, y, z) = (1, 0, 0, 0)` returns `v`
unchanged. -/
theorem clockwise_rotate_identity {α : Type} [LinearOrderedField α] (v : Vector3f α) :
    psmove_vector3f_clockwise_rotate (⟨1, 0, 0, 0⟩ : Quaternionf α) v = v := by
  rcases v with ⟨vx, vy, vz⟩
  simp [psmove_vector3f_clockwise_rotate, Quaternionf.conjugate, Quaternionf._transformVector,
    Quaternionf.vec, Vector3f.add, Vector3f.smul, Vector3f.cross]

/-! ## Euler construction -/

/-- C12: for all real yaw, pitch and roll, the quaternion `(w, x, y, z)`
returned by `psmove_quaterion_yaw_pitch_roll` satisfies
`w^2 + x^2 + y^2 + z^2 = 1`; its Eigen norm is one and Eigen `normalize`
leaves it as it is. -/
theorem yaw_pitch_roll_unit (yaw pitch roll : ℝ) :
    (psmove_quaterion_yaw_pitch_roll yaw pitch roll).w ^ 2
        + (psmove_quaterion_yaw_pitch_roll yaw pitch roll).x ^ 2
        + (psmove_quaterion_yaw_pitch_roll yaw pitch roll).y ^ 2
        + (psmove_quaterion_yaw_pitch_roll yaw pitch roll).z ^ 2 = 1 ∧
    (psmove_quaterion_yaw_pitch_roll yaw pitch roll).norm = 1 ∧
    (psmove_quaterion_yaw_pitch_roll yaw pitch roll).normalize
      = psmove_quaterion_yaw_pitch_roll yaw pitch roll := by
  have hx := Real.cos_sq_add_sin_sq (pitch / 2)
  have hy := Real.cos_sq_add_sin_sq (yaw / 2)
  have hz := Real.cos_sq_add_sin_sq (roll / 2)
  have hsq : (psmove_quaterion_yaw_pitch_roll yaw pitch roll).w ^ 2
        + (psmove_quaterion_yaw_pitch_roll yaw pitch roll).x ^ 2
        + (psmove_quaterion_yaw_pitch_roll yaw pitch roll).y ^ 2
        + (psmove_quaterion_yaw_pitch_roll yaw pitch roll).z ^ 2 = 1 := by
    rw [yaw_pitch_roll_eq]
    dsimp only
    linear_combination
      hx + (Real.cos (pitch / 2) ^ 2 + Real.sin (pitch / 2) ^ 2) * hy
        + (Real.cos (pitch / 2) ^ 2 + Real.sin (pitch / 2) ^ 2)
          * (Real.cos (yaw / 2) ^ 2 + Real.sin (yaw / 2) ^ 2) * hz
  have hnorm : (psmove_quaterion_yaw_pitch_roll yaw pitch roll).norm = 1 := by
    rw [Quaternionf.norm_eq, ← Real.sqrt_one]
    congr 1
    linear_combination hsq
  exact ⟨hsq, hnorm, Quaternionf.normalize_of_norm_eq_one _ hnorm⟩

/-- C13: for every scalar field and math library and all yaw, pitch and roll,
`psmove_quaterion_yaw_pitch_roll yaw pitch roll` is the Hamilton product
`qz(roll) * qy(yaw) * qx(pitch)` of the three axis rotations, in either
bracketing. -/
theorem yaw_pitch_roll_eq_mul {α : Type} [LinearOrderedField α] [MathLib α]
    (yaw pitch roll : α) :
    psmove_quaterion_yaw_pitch_roll yaw pitch roll
      = ((qz roll).mul (qy yaw)).mul (qx pitch) ∧
    psmove_quaterion_yaw_pitch_roll yaw pitch roll
      = (qz roll).mul ((qy yaw).mul (qx pitch)) := by
  constructor
  · simp only [psmove_quaterion_yaw_pitch_roll, qx, qy, qz, Quaternionf.mul,
      Quaternionf.mk.injEq]
    refine ⟨?_, ?_, ?_, ?_⟩ <;> ring
  · simp only [psmove_quaterion_yaw_pitch_roll, qx, qy, qz, Quaternionf.mul,
      Quaternionf.mk.injEq]
    refine ⟨?_, ?_, ?_, ?_⟩ <;> ring

/-! ## Hamilton products and the two rotation conventions -/

section Sandwich

variable {α : Type} [LinearOrderedField α]

theorem Quaternionf.conjugate_mul (a b : Quaternionf α) :
    (a.mul b).conjugate = b.conjugate.mul a.conjugate := by
  simp only [Quaternionf.mul, Quaternionf.conjugate, Quaternionf.mk.injEq]
  refine ⟨?_, ?_, ?_, ?_⟩ <;> ring

theorem Quaternionf.squaredNorm_mul (a b : Quaternionf α) :
    (a.mul b).squaredNorm = a.squaredNorm * b.squaredNorm := by
  simp only [Quaternionf.mul, Quaternionf.squaredNorm_eq]
  ring

theorem Quaternionf.squaredNorm_conjugate (q : Quaternionf α) :
    q.conjugate.squaredNorm = q.squaredNorm := by
  simp only [Quaternionf.conjugate, Quaternionf.squaredNorm_eq]
  ring

theorem Quaternionf.mul_conjugate (q : Quaternionf α) :
    q.mul q.conjugate = ⟨q.squaredNorm, 0, 0, 0⟩ := by
  simp only [Quaternionf.mul, Quaternionf.conjugate, Quaternionf.squaredNorm_eq,
    Quaternionf.mk.injEq]
  refine ⟨?_, ?_, ?_, ?_⟩ <;> ring

theorem Quaternionf.inverse_of_unit (q : Quaternionf α) (h : q.squaredNorm = 1) :
    q.inverse = q.conjugate := by
  have hpos : q.squaredNorm > 0 := by rw [h]; exact one_pos
  simp only [Quaternionf.inverse, if_pos hpos]
  simp only [h, Quaternionf.ofCoeffs, Quaternionf.coeffs, Vector4f.divScalar,
    Quaternionf.conjugate, div_one]

/-- The scalar part of a sandwich product of a pure quaternion vanishes. -/
theorem sandwich_scalar (p : Quaternionf α) (v : Vector3f α) :
    ((p.mul (pure_quaternion v)).mul p.conjugate).w = 0 := by
  simp only [Quaternionf.mul, Quaternionf.conjugate, pure_quaternion]
  ring

/-- Eigen's hand-optimised transform of a unit quaternion is the sandwich
product. -/
theorem transformVector_eq_sandwich (p : Quaternionf α) (v : Vector3f α)
    (hp : p.squaredNorm = 1) : p._transformVector v = sandwich p v := by
  rcases p with ⟨w, x, y, z⟩
  rcases v with ⟨vx, vy, vz⟩
  simp only [Quaternionf.squaredNorm_eq] at hp
  simp only [Quaternionf._transformVector, sandwich, Quaternionf.mul, Quaternionf.conjugate,
    pure_quaternion, Quaternionf.vec, Vector3f.add, Vector3f.smul, Vector3f.cross,
    Vector3f.mk.injEq]
  refine ⟨?_, ?_, ?_⟩
  · linear_combination (-vx) * hp
  · linear_combination (-vy) * hp
  · linear_combination (-vz) * hp

/-- The sandwich by a Hamilton product is the sandwich by the right factor
followed by the sandwich by the left factor. -/
theorem sandwich_mul (p₁ p₂ : Quaternionf α) (v : Vector3f α) :
    sandwich (p₁.mul p₂) v = sandwich p₁ (sandwich p₂ v) := by
  rcases p₁ with ⟨w₁, x₁, y₁, z₁⟩
  rcases p₂ with ⟨w₂, x₂, y₂, z₂⟩
  rcases v with ⟨vx, vy, vz⟩
  simp only [sandwich, Quaternionf.mul, Quaternionf.conjugate, pure_quaternion,
    Quaternionf.vec, Vector3f.mk.injEq]
  refine ⟨?_, ?_, ?_⟩ <;> ring

theorem sandwich_one (v : Vector3f α) : sandwich (⟨1, 0, 0, 0⟩ : Quaternionf α) v = v := by
  rcases v with ⟨vx, vy, vz⟩
  simp [sandwich, Quaternionf.mul, Quaternionf.conjugate, pure_quaternion, Quaternionf.vec]

theorem clockwise_rotate_eq_sandwich_conjugate (q : Quaternionf α) (v : Vector3f α)
    (hq : q.squaredNorm = 1) :
    psmove_vector3f_clockwise_rotate q v = sandwich q.conjugate v := by
  have hc : q.conjugate.squaredNorm = 1 := by rw [Quaternionf.squaredNorm_conjugate, hq]
  exact transformVector_eq_sandwich q.conjugate v hc

end Sandwich

/-- C14: for every unit quaternion `q` and vector `v`,
`psmove_vector3f_clockwise_rotate q v` is the vector part of the Hamilton
product `q⁻¹ * (0, v) * q`, whose scalar part is zero; and the native
counterclockwise transform of `q`, both as Eigen computes it and as the
product `q * (0, ·) * q⁻¹`, takes the result back to `v`. -/
theorem clockwise_rotate_eq_inverse_sandwich {α : Type} [LinearOrderedField α]
    (q : Quaternionf α) (v : Vector3f α) (hq : q.squaredNorm = 1) :
    psmove_vector3f_clockwise_rotate q v
      = ((q.inverse.mul (pure_quaternion v)).mul q).vec ∧
    ((q.inverse.mul (pure_quaternion v)).mul q).w = 0 ∧
    q._transformVector (psmove_vector3f_clockwise_rotate q v) = v ∧
    ((q.mul (pure_quaternion (psmove_vector3f_clockwise_rotate q v))).mul q.inverse).vec
      = v := by
  have hinv := q.inverse_of_unit hq
  have hcw := clockwise_rotate_eq_sandwich_conjugate q v hq
  have hback : sandwich q (sandwich q.conjugate v) = v := by
    rw [← sandwich_mul, Quaternionf.mul_conjugate, hq, sandwich_one]
  have hs : sandwich q.conjugate v = ((q.conjugate.mul (pure_quaternion v)).mul q).vec := by
    simp only [sandwich, Quaternionf.conjugate_conjugate]
  have hw := sandwich_scalar q.conjugate v
  rw [Quaternionf.conjugate_conjugate] at hw
  refine ⟨?_, ?_, ?_, ?_⟩
  · rw [hinv, hcw, hs]
  · rw [hinv]
    exact hw
  · rw [transformVector_eq_sandwich q _ hq, hcw]
    exact hback
  · rw [hinv, hcw]
    exact hback

/-- Witness for C14 on the rationals: the unit quaternion
`(w, x, y, z) = (3/5, 0, 4/5, 0)` and the vector `(1, 2, 3)`. -/
theorem clockwise_rotate_eq_inverse_sandwich_witness :
    (⟨3 / 5, 0, 4 / 5, 0⟩ : Quaternionf ℚ).squaredNorm = 1 ∧
    (⟨3 / 5, 0, 4 / 5, 0⟩ : Quaternionf ℚ)._transformVector
      (psmove_vector3f_clockwise_rotate (⟨3 / 5, 0, 4 / 5, 0⟩ : Quaternionf ℚ) ⟨1, 2, 3⟩)
      = ⟨1, 2, 3⟩ :=
  ⟨by norm_num [Quaternionf.squaredNorm, Quaternionf.coeffs, Vector4f.squaredNorm],
    (clockwise_rotate_eq_inverse_sandwich (⟨3 / 5, 0, 4 / 5, 0⟩ : Quaternionf ℚ) ⟨1, 2, 3⟩
      (by norm_num [Quaternionf.squaredNorm, Quaternionf.coeffs,
        Vector4f.squaredNorm])).2.2.1⟩

/-- C16: for every quaternion `q`, in particular every unit quaternion, and
every 3-vector `v`, the matrix `psmove_quaternion_to_clockwise_matrix3f q`
multiplied by `v` is `psmove_vector3f_clockwise_rotate q v`. -/
theorem clockwise_matrix_mulVec {α : Type} [LinearOrderedField α]
    (q : Quaternionf α) (v : Vector3f α) :
    (psmove_quaternion_to_clockwise_matrix3f q).mulVec v
      = psmove_vector3f_clockwise_rotate q v := by
  rcases q with ⟨w, x, y, z⟩
  rcases v with ⟨vx, vy, vz⟩
  simp only [psmove_quaternion_to_clockwise_matrix3f, psmove_vector3f_clockwise_rotate,
    Quaternionf.conjugate, Quaternionf.toRotationMatrix, Matrix3f.mulVec,
    Quaternionf._transformVector, Quaternionf.vec, Vector3f.add, Vector3f.smul,
    Vector3f.cross, Vector3f.mk.injEq]
  refine ⟨?_, ?_, ?_⟩ <;> ring

/-- C18: for all unit quaternions `q1`, `q2` and every vector `v`,
`psmove_vector3f_clockwise_rotate (q1 * q2) v` is
`psmove_vector3f_clockwise_rotate q2 (psmove_vector3f_clockwise_rotate q1 v)`:
the left factor of a Hamilton product is applied first, whereas the native
counterclockwise transform of `q1 * q2` applies the right factor first. -/
theorem clockwise_rotate_mul {α : Type} [LinearOrderedField α]
    (q1 q2 : Quaternionf α) (v : Vector3f α)
    (h1 : q1.squaredNorm = 1) (h2 : q2.squaredNorm = 1) :
    psmove_vector3f_clockwise_rotate (q1.mul q2) v
      = psmove_vector3f_clockwise_rotate q2 (psmove_vector3f_clockwise_rotate q1 v) ∧
    (q1.mul q2)._transformVector v = q1._transformVector (q2._transformVector v) := by
  have h12 : (q1.mul q2).squaredNorm = 1 := by
    rw [Quaternionf.squaredNorm_mul, h1, h2, mul_one]
  constructor
  · rw [clockwise_rotate_eq_sandwich_conjugate _ v h12, Quaternionf.conjugate_mul,
      sandwich_mul, clockwise_rotate_eq_sandwich_conjugate q2 _ h2,
      clockwise_rotate_eq_sandwich_conjugate q1 v h1]
  · rw [transformVector_eq_sandwich _ v h12, sandwich_mul,
      transformVector_eq_sandwich q1 _ h1, transformVector_eq_sandwich q2 v h2]

/-- Witness for C18 on the rationals: `q1 = (3/5, 4/5, 0, 0)`, a rotation
about x, and `q2 = (3/5, 0, 0, 4/5)`, a rotation about z, applied to
`(1, 2, 3)`. -/
theorem clockwise_rotate_mul_witness :
    (⟨3 / 5, 4 / 5, 0, 0⟩ : Quaternionf ℚ).squaredNorm = 1 ∧
    (⟨3 / 5, 0, 0, 4 / 5⟩ : Quaternionf ℚ).squaredNorm = 1 ∧
    psmove_vector3f_clockwise_rotate
        ((⟨3 / 5, 4 / 5, 0, 0⟩ : Quaternionf ℚ).mul ⟨3 / 5, 0, 0, 4 / 5⟩) ⟨1, 2, 3⟩
      = psmove_vector3f_clockwise_rotate (⟨3 / 5, 0, 0, 4 / 5⟩ : Quaternionf ℚ)
          (psmove_vector3f_clockwise_rotate (⟨3 / 5, 4 / 5, 0, 0⟩ : Quaternionf ℚ)
            ⟨1, 2, 3⟩) :=
  ⟨by norm_num [Quaternionf.squaredNorm, Quaternionf.coeffs, Vector4f.squaredNorm],
    by norm_num [Quaternionf.squaredNorm, Quaternionf.coeffs, Vector4f.squaredNorm],
    (clockwise_rotate_mul (⟨3 / 5, 4 / 5, 0, 0⟩ : Quaternionf ℚ) ⟨3 / 5, 0, 0, 4 / 5⟩
      ⟨1, 2, 3⟩
      (by norm_num [Quaternionf.squaredNorm, Quaternionf.coeffs, Vector4f.squaredNorm])
      (by norm_num [Quaternionf.squaredNorm, Quaternionf.coeffs,
        Vector4f.squaredNorm])).1⟩

/-! ## Euler extraction on unit quaternions -/

theorem get_yaw_pitch_roll_roll_of_north {α : Type} [LinearOrderedField α] [MathLib α]
    (q : Quaternionf α) (h : q.x * q.y + q.z * q.w > 8371831 / 16777216) :
    (psmove_quaternion_get_yaw_pitch_roll q).out_roll_radians = k_real_pi / 2 := by
  simp only [psmove_quaternion_get_yaw_pitch_roll, if_pos h]

theorem get_yaw_pitch_roll_roll_of_south {α : Type} [LinearOrderedField α] [MathLib α]
    (q : Quaternionf α) (h1 : ¬ (q.x * q.y + q.z * q.w > 8371831 / 16777216))
    (h2 : q.x * q.y + q.z * q.w < -(8371831 / 16777216)) :
    (psmove_quaternion_get_yaw_pitch_roll q).out_roll_radians = -k_real_pi / 2 := by
  simp only [psmove_quaternion_get_yaw_pitch_roll, if_neg h1, if_pos h2]

/-- C17: for every unit quaternion `q`, the test value
`q.x*q.y + q.z*q.w` has absolute value at most `1/2`, so the argument
`2 * test` of `asinf` lies in `[-1, 1]`; in the closed-form branch the roll
output is the arcsine of that argument and its sine is the argument itself;
and in every branch the roll output lies in `[-π/2, π/2]`. -/
theorem get_yaw_pitch_roll_asin_domain (q : Quaternionf ℝ) (hq : q.squaredNorm = 1) :
    |q.x * q.y + q.z * q.w| ≤ 1 / 2 ∧
    (-1 ≤ 2 * (q.x * q.y + q.z * q.w) ∧ 2 * (q.x * q.y + q.z * q.w) ≤ 1) ∧
    (¬ (q.x * q.y + q.z * q.w > 499 / 1000) → ¬ (q.x * q.y + q.z * q.w < -(499 / 1000)) →
      (psmove_quaternion_get_yaw_pitch_roll q).out_roll_radians
          = Real.arcsin (2 * (q.x * q.y + q.z * q.w)) ∧
      Real.sin (psmove_quaternion_get_yaw_pitch_roll q).out_roll_radians
          = 2 * (q.x * q.y + q.z * q.w)) ∧
    (-(Real.pi / 2) ≤ (psmove_quaternion_get_yaw_pitch_roll q).out_roll_radians ∧
      (psmove_quaternion_get_yaw_pitch_roll q).out_roll_radians ≤ Real.pi / 2) := by
  rw [Quaternionf.squaredNorm_eq] at hq
  have hlo : -1 ≤ 2 * (q.x * q.y + q.z * q.w) := by
    nlinarith [mul_self_nonneg (q.x + q.y), mul_self_nonneg (q.z + q.w)]
  have hhi : 2 * (q.x * q.y + q.z * q.w) ≤ 1 := by
    nlinarith [mul_self_nonneg (q.x - q.y), mul_self_nonneg (q.z - q.w)]
  have hpi := Real.pi_pos
  refine ⟨abs_le.mpr ⟨by linarith, by linarith⟩, ⟨hlo, hhi⟩, ?_, ?_⟩
  · intro h1 h2
    rw [get_yaw_pitch_roll_closed_form_of_band q h1 h2]
    exact ⟨rfl, Real.sin_arcsin hlo hhi⟩
  · by_cases h1 : q.x * q.y + q.z * q.w > 8371831 / 16777216
    · rw [get_yaw_pitch_roll_roll_of_north q h1]
      show -(Real.pi / 2) ≤ Real.pi / 2 ∧ Real.pi / 2 ≤ Real.pi / 2
      exact ⟨by linarith, le_refl _⟩
    · by_cases h2 : q.x * q.y + q.z * q.w < -(8371831 / 16777216)
      · rw [get_yaw_pitch_roll_roll_of_south q h1 h2]
        show -(Real.pi / 2) ≤ -Real.pi / 2 ∧ -Real.pi / 2 ≤ Real.pi / 2
        exact ⟨by linarith, by linarith⟩
      · rw [get_yaw_pitch_roll_closed_form q h1 h2]
        exact ⟨Real.neg_pi_div_two_le_arcsin _, Real.arcsin_le_pi_div_two _⟩

/-- Witness for C17: the unit quaternion `(w, x, y, z) = (3/5, 0, 0, 4/5)`,
whose test value is `12/25`. -/
theorem get_yaw_pitch_roll_asin_domain_witness :
    (⟨3 / 5, 0, 0, 4 / 5⟩ : Quaternionf ℝ).squaredNorm = 1 ∧
    |(0 : ℝ) * 0 + 4 / 5 * (3 / 5)| ≤ 1 / 2 ∧
    (-(Real.pi / 2)
        ≤ (psmove_quaternion_get_yaw_pitch_roll
            (⟨3 / 5, 0, 0, 4 / 5⟩ : Quaternionf ℝ)).out_roll_radians ∧
      (psmove_quaternion_get_yaw_pitch_roll
            (⟨3 / 5, 0, 0, 4 / 5⟩ : Quaternionf ℝ)).out_roll_radians ≤ Real.pi / 2) :=
  ⟨by norm_num [Quaternionf.squaredNorm, Quaternionf.coeffs, Vector4f.squaredNorm],
    (get_yaw_pitch_roll_asin_domain (⟨3 / 5, 0, 0, 4 / 5⟩ : Quaternionf ℝ)
      (by norm_num [Quaternionf.squaredNorm, Quaternionf.coeffs, Vector4f.squaredNorm])).1,
    (get_yaw_pitch_roll_asin_domain (⟨3 / 5, 0, 0, 4 / 5⟩ : Quaternionf ℝ)
      (by norm_num [Quaternionf.squaredNorm, Quaternionf.coeffs,
        Vector4f.squaredNorm])).2.2.2⟩

/-! ## Single-axis Euler round trip -/

/-- C19: when at most one of the three angles is non-zero,
`psmove_quaternion_get_yaw_pitch_roll` applied to
`psmove_quaterion_yaw_pitch_roll yaw pitch roll` returns the original triple:
for yaw in `(-π, π)` with pitch and roll zero, for pitch in `(-π, π)` with
yaw and roll zero, and for roll with `|roll| ≤ π/2` and
`|sin(roll)| / 2 ≤ 0.499` with yaw and pitch zero. -/
theorem single_axis_round_trip (t : ℝ) :
    (-Real.pi < t → t < Real.pi →
      psmove_quaternion_get_yaw_pitch_roll (psmove_quaterion_yaw_pitch_roll t 0 0)
        = { out_yaw_radians := t, out_pitch_radians := 0, out_roll_radians := 0 }) ∧
    (-Real.pi < t → t < Real.pi →
      psmove_quaternion_get_yaw_pitch_roll (psmove_quaterion_yaw_pitch_roll 0 t 0)
        = { out_yaw_radians := 0, out_pitch_radians := t, out_roll_radians := 0 }) ∧
    (|t| ≤ Real.pi / 2 → |Real.sin t| / 2 ≤ 499 / 1000 →
      psmove_quaternion_get_yaw_pitch_roll (psmove_quaterion_yaw_pitch_roll 0 0 t)
        = { out_yaw_radians := 0, out_pitch_radians := 0, out_roll_radians := t }) := by
  have hpi := Real.pi_pos
  refine ⟨fun h1 h2 => ?_, fun h1 h2 => ?_, fun h1 h2 => ?_⟩
  · exact get_yaw_pitch_roll_of_roll_zero t 0 h1 h2 (by linarith) hpi
  · exact get_yaw_pitch_roll_of_roll_zero 0 t (by linarith) hpi h1 h2
  · obtain ⟨hlo, hhi⟩ := abs_le.mp h1
    have hne1 : t ≠ Real.pi / 2 := by
      intro h
      rw [h, Real.sin_pi_div_two] at h2
      norm_num at h2
    have hne2 : t ≠ -(Real.pi / 2) := by
      intro h
      rw [h, Real.sin_neg, Real.sin_pi_div_two] at h2
      norm_num at h2
    have hband : |Real.sin t * Real.cos 0 / 2| ≤ 499 / 1000 := by
      rw [Real.cos_zero, mul_one, abs_div, abs_two]
      exact h2
    exact get_yaw_pitch_roll_of_yaw_zero 0 t (by linarith) hpi
      (lt_of_le_of_ne hlo (Ne.symm hne2)) (lt_of_le_of_ne hhi hne1) hband

/-- Witness for C19: yaw alone and pitch alone at the angle `1` radian, which
lies in `(-π, π)`, and roll alone at `1/2` radian, where `|sin| / 2 < 1/4`. -/
theorem single_axis_round_trip_witness :
    (-Real.pi < 1 ∧ (1 : ℝ) < Real.pi) ∧
    psmove_quaternion_get_yaw_pitch_roll (psmove_quaterion_yaw_pitch_roll (1 : ℝ) 0 0)
      = { out_yaw_radians := 1, out_pitch_radians := 0, out_roll_radians := 0 } ∧
    psmove_quaternion_get_yaw_pitch_roll (psmove_quaterion_yaw_pitch_roll (0 : ℝ) 1 0)
      = { out_yaw_radians := 0, out_pitch_radians := 1, out_roll_radians := 0 } ∧
    psmove_quaternion_get_yaw_pitch_roll (psmove_quaterion_yaw_pitch_roll (0 : ℝ) 0 (1 / 2))
      = { out_yaw_radians := 0, out_pitch_radians := 0, out_roll_radians := 1 / 2 } := by
  have h3 := Real.pi_gt_three
  have hs1 : Real.sin (1 / 2) < 1 / 2 := Real.sin_lt (by norm_num)
  have hs0 : 0 ≤ Real.sin (1 / 2) :=
    Real.sin_nonneg_of_nonneg_of_le_pi (by norm_num) (by linarith)
  have hroll : |(1 / 2 : ℝ)| ≤ Real.pi / 2 := by
    rw [abs_of_pos (by norm_num)]
    linarith
  have hband : |Real.sin (1 / 2)| / 2 ≤ 499 / 1000 := by
    rw [abs_of_nonneg hs0]
    linarith
  exact ⟨⟨by linarith, by linarith⟩,
    (single_axis_round_trip 1).1 (by linarith) (by linarith),
    (single_axis_round_trip 1).2.1 (by linarith) (by linarith),
    (single_axis_round_trip (1 / 2)).2.2 hroll hband⟩

/-! ## Quaternion to matrix and back -/

section QuaternionRoundTrip

/-- One branch of the extraction on the matrix of a quaternion: when the
square-root argument `D` is `(2a)^2` for the pivot component `a` and the three
numerators are `4 a b`, `4 a c`, `4 a d`, the four extracted components are
`a, b, c, d` or their negatives. -/
theorem shoemake_branch (a b c d D Nb Nc Nd : ℝ) (hD : D = (2 * a) ^ 2) (hpos : 0 < D)
    (hb : Nb = 4 * a * b) (hc : Nc = 4 * a * c) (hd : Nd = 4 * a * d) :
    (1 / 2 * Real.sqrt D = a ∧ Nb * (1 / 2 / Real.sqrt D) = b ∧
        Nc * (1 / 2 / Real.sqrt D) = c ∧ Nd * (1 / 2 / Real.sqrt D) = d) ∨
    (1 / 2 * Real.sqrt D = -a ∧ Nb * (1 / 2 / Real.sqrt D) = -b ∧
        Nc * (1 / 2 / Real.sqrt D) = -c ∧ Nd * (1 / 2 / Real.sqrt D) = -d) := by
  have ha : a ≠ 0 := by
    intro h
    rw [h] at hD
    rw [hD] at hpos
    norm_num at hpos
  have hs : Real.sqrt D = |2 * a| := by rw [hD, Real.sqrt_sq_eq_abs]
  rcases lt_or_gt_of_ne ha with hneg | hgt
  · right
    rw [hs, abs_of_neg (by linarith), hb, hc, hd]
    refine ⟨by ring, ?_, ?_, ?_⟩ <;> field_simp <;> ring
  · left
    rw [hs, abs_of_pos (by linarith), hb, hc, hd]
    refine ⟨by ring, ?_, ?_, ?_⟩ <;> field_simp <;> ring

theorem Quaternionf.toRotationMatrix_neg {α : Type} [LinearOrderedField α] (q : Quaternionf α) :
    q.neg.toRotationMatrix = q.toRotationMatrix := by
  simp only [Quaternionf.toRotationMatrix, Quaternionf.neg, Matrix3f.mk.injEq]
  refine ⟨?_, ?_, ?_, ?_, ?_, ?_, ?_, ?_, ?_⟩ <;> ring

theorem Quaternionf.neg_neg {α : Type} [LinearOrderedField α] (q : Quaternionf α) :
    q.neg.neg = q := by
  rcases q with ⟨w, x, y, z⟩
  simp [Quaternionf.neg]

theorem Quaternionf.conjugate_neg {α : Type} [LinearOrderedField α] (q : Quaternionf α) :
    q.neg.conjugate = q.conjugate.neg := by
  simp [Quaternionf.neg, Quaternionf.conjugate]

/-- The extraction applied to the rotation matrix of a unit quaternion gives
that quaternion back up to sign, in each of its four branches. -/
theorem ofMatrix_toRotationMatrix (p : Quaternionf ℝ) (hp : p.squaredNorm = 1) :
    Quaternionf.ofMatrix p.toRotationMatrix = p ∨
    Quaternionf.ofMatrix p.toRotationMatrix = p.neg := by
  rcases p with ⟨w, x, y, z⟩
  simp only [Quaternionf.squaredNorm_eq] at hp
  obtain ⟨M, hM⟩ : ∃ M, M = Quaternionf.toRotationMatrix ⟨w, x, y, z⟩ := ⟨_, rfl⟩
  rw [← hM]
  by_cases h : M.trace > 0
  · rw [ofMatrix_of_trace_pos M h]
    have hpos : 0 < M.trace + 1 := by linarith
    have hD : M.trace + 1 = (2 * w) ^ 2 := by
      rw [hM]
      simp only [Matrix3f.trace, Quaternionf.toRotationMatrix]
      linear_combination (-4 : ℝ) * hp
    rcases shoemake_branch w x y z (M.trace + 1) (M.m21 - M.m12) (M.m02 - M.m20) (M.m10 - M.m01) hD hpos
        (by rw [hM]; simp only [Quaternionf.toRotationMatrix]; ring)
        (by rw [hM]; simp only [Quaternionf.toRotationMatrix]; ring)
        (by rw [hM]; simp only [Quaternionf.toRotationMatrix]; ring) with h4 | h4
    · left
      rw [h4.1, h4.2.1, h4.2.2.1, h4.2.2.2]
    · right
      rw [h4.1, h4.2.1, h4.2.2.1, h4.2.2.2]
      rfl
  · have htr : M.m00 + M.m11 + M.m22 ≤ 0 := not_lt.mp h
    by_cases h2 : M.m22 > (if M.m11 > M.m00 then M.m11 else M.m00)
    · rw [ofMatrix_of_z_largest M h h2]
      have hpos : 0 < M.m22 - M.m00 - M.m11 + 1 := by
        split_ifs at h2 <;> linarith
      have hD : M.m22 - M.m00 - M.m11 + 1 = (2 * z) ^ 2 := by
        rw [hM]
        simp only [Matrix3f.trace, Quaternionf.toRotationMatrix]
        ring
      rcases shoemake_branch z w x y (M.m22 - M.m00 - M.m11 + 1) (M.m10 - M.m01) (M.m02 + M.m20) (M.m12 + M.m21) hD hpos
          (by rw [hM]; simp only [Quaternionf.toRotationMatrix]; ring)
          (by rw [hM]; simp only [Quaternionf.toRotationMatrix]; ring)
          (by rw [hM]; simp only [Quaternionf.toRotationMatrix]; ring) with h4 | h4
      · left
        rw [h4.1, h4.2.1, h4.2.2.1, h4.2.2.2]
      · right
        rw [h4.1, h4.2.1, h4.2.2.1, h4.2.2.2]
        rfl
    · by_cases h1 : M.m11 > M.m00
      · rw [if_pos h1] at h2
        rw [ofMatrix_of_y_largest M h h1 h2]
        have hpos : 0 < M.m11 - M.m22 - M.m00 + 1 := by linarith
        have hD : M.m11 - M.m22 - M.m00 + 1 = (2 * y) ^ 2 := by
          rw [hM]
          simp only [Matrix3f.trace, Quaternionf.toRotationMatrix]
          ring
        rcases shoemake_branch y w x z (M.m11 - M.m22 - M.m00 + 1) (M.m02 - M.m20) (M.m01 + M.m10) (M.m21 + M.m12) hD hpos
            (by rw [hM]; simp only [Quaternionf.toRotationMatrix]; ring)
            (by rw [hM]; simp only [Quaternionf.toRotationMatrix]; ring)
            (by rw [hM]; simp only [Quaternionf.toRotationMatrix]; ring) with h4 | h4
        · left
          rw [h4.1, h4.2.1, h4.2.2.1, h4.2.2.2]
        · right
          rw [h4.1, h4.2.1, h4.2.2.1, h4.2.2.2]
          rfl
      · rw [if_neg h1] at h2
        rw [ofMatrix_of_x_largest M h h1 h2]
        have hpos : 0 < M.m00 - M.m11 - M.m22 + 1 := by linarith
        have hD : M.m00 - M.m11 - M.m22 + 1 = (2 * x) ^ 2 := by
          rw [hM]
          simp only [Matrix3f.trace, Quaternionf.toRotationMatrix]
          ring
        rcases shoemake_branch x w y z (M.m00 - M.m11 - M.m22 + 1) (M.m21 - M.m12) (M.m10 + M.m01) (M.m20 + M.m02) hD hpos
            (by rw [hM]; simp only [Quaternionf.toRotationMatrix]; ring)
            (by rw [hM]; simp only [Quaternionf.toRotationMatrix]; ring)
            (by rw [hM]; simp only [Quaternionf.toRotationMatrix]; ring) with h4 | h4
        · left
          rw [h4.1, h4.2.1, h4.2.2.1, h4.2.2.2]
        · right
          rw [h4.1, h4.2.1, h4.2.2.1, h4.2.2.2]
          rfl

end QuaternionRoundTrip

/-- C15: for every unit quaternion `q`,
`psmove_matrix3f_to_clockwise_quaternion` applied to
`psmove_quaternion_to_clockwise_matrix3f q` is `q` or `-q`; it has the same
clockwise matrix as `q`; and it is the conjugate of `q`, up to sign, only when
`q` is its own conjugate up to sign. -/
theorem quaternion_round_trip (q : Quaternionf ℝ) (hq : q.squaredNorm = 1) :
    (psmove_matrix3f_to_clockwise_quaternion (psmove_quaternion_to_clockwise_matrix3f q) = q ∨
      psmove_matrix3f_to_clockwise_quaternion (psmove_quaternion_to_clockwise_matrix3f q)
        = q.neg) ∧
    psmove_quaternion_to_clockwise_matrix3f
        (psmove_matrix3f_to_clockwise_quaternion (psmove_quaternion_to_clockwise_matrix3f q))
      = psmove_quaternion_to_clockwise_matrix3f q ∧
    ((psmove_matrix3f_to_clockwise_quaternion (psmove_quaternion_to_clockwise_matrix3f q)
          = q.conjugate ∨
        psmove_matrix3f_to_clockwise_quaternion (psmove_quaternion_to_clockwise_matrix3f q)
          = q.conjugate.neg) →
      (q = q.conjugate ∨ q = q.conjugate.neg)) := by
  have hc : q.conjugate.squaredNorm = 1 := by rw [Quaternionf.squaredNorm_conjugate, hq]
  have hsign : psmove_matrix3f_to_clockwise_quaternion
        (psmove_quaternion_to_clockwise_matrix3f q) = q ∨
      psmove_matrix3f_to_clockwise_quaternion (psmove_quaternion_to_clockwise_matrix3f q)
        = q.neg := by
    simp only [psmove_matrix3f_to_clockwise_quaternion, psmove_quaternion_to_clockwise_matrix3f]
    rcases ofMatrix_toRotationMatrix q.conjugate hc with h | h
    · left
      rw [h, Quaternionf.conjugate_conjugate]
    · right
      rw [h, ← Quaternionf.conjugate_neg, Quaternionf.conjugate_conjugate]
  refine ⟨hsign, ?_, ?_⟩
  · rcases hsign with h | h
    · rw [h]
    · rw [h]
      simp only [psmove_quaternion_to_clockwise_matrix3f, Quaternionf.conjugate_neg,
        Quaternionf.toRotationMatrix_neg]
  · intro hconj
    rcases hsign with h | h <;> rcases hconj with h' | h'
    · left
      exact h.symm.trans h'
    · right
      exact h.symm.trans h'
    · right
      have h2 : q.neg = q.conjugate := h.symm.trans h'
      rw [← h2, Quaternionf.neg_neg]
    · left
      have h2 : q.neg = q.conjugate.neg := h.symm.trans h'
      have h3 := congrArg Quaternionf.neg h2
      rwa [Quaternionf.neg_neg, Quaternionf.neg_neg] at h3

/-- Witness for C15: the unit quaternion `(w, x, y, z) = (-3/5, 0, 4/5, 0)`,
whose matrix has a negative trace and whose scalar part is negative. -/
theorem quaternion_round_trip_witness :
    (⟨-3 / 5, 0, 4 / 5, 0⟩ : Quaternionf ℝ).squaredNorm = 1 ∧
    (psmove_matrix3f_to_clockwise_quaternion
        (psmove_quaternion_to_clockwise_matrix3f (⟨-3 / 5, 0, 4 / 5, 0⟩ : Quaternionf ℝ))
        = ⟨-3 / 5, 0, 4 / 5, 0⟩ ∨
      psmove_matrix3f_to_clockwise_quaternion
        (psmove_quaternion_to_clockwise_matrix3f (⟨-3 / 5, 0, 4 / 5, 0⟩ : Quaternionf ℝ))
        = (⟨-3 / 5, 0, 4 / 5, 0⟩ : Quaternionf ℝ).neg) :=
  ⟨by norm_num [Quaternionf.squaredNorm, Quaternionf.coeffs, Vector4f.squaredNorm],
    (quaternion_round_trip (⟨-3 / 5, 0, 4 / 5, 0⟩ : Quaternionf ℝ)
      (by norm_num [Quaternionf.squaredNorm, Quaternionf.coeffs, Vector4f.squaredNorm])).1⟩

/-! ## The gimbal-lock threshold is the single-precision literal -/

/-- C10 as stated, with the decimal threshold `0.499`, fails at
`q = (w, x, y, z) = (1, 0, 0, 8371831 / 16777216)`: the test value is
`8371831 / 16777216`, which exceeds `0.499` but not the literal `0.499f`, so
the closed-form branch runs and the roll output is the arcsine of
`8371831 / 8388608`, which is not `π / 2`; likewise at
`q = (1, 0, 0, -(8371831 / 16777216))` the roll output is not `-π / 2`. -/
theorem get_yaw_pitch_roll_poles_decimal_fails :
    ((⟨1, 0, 0, 8371831 / 16777216⟩ : Quaternionf ℝ).x
          * (⟨1, 0, 0, 8371831 / 16777216⟩ : Quaternionf ℝ).y
        + (⟨1, 0, 0, 8371831 / 16777216⟩ : Quaternionf ℝ).z
          * (⟨1, 0, 0, 8371831 / 16777216⟩ : Quaternionf ℝ).w > 499 / 1000 ∧
      (psmove_quaternion_get_yaw_pitch_roll
          (⟨1, 0, 0, 8371831 / 16777216⟩ : Quaternionf ℝ)).out_roll_radians
        = Real.arcsin (8371831 / 8388608) ∧
      psmove_quaternion_get_yaw_pitch_roll (⟨1, 0, 0, 8371831 / 16777216⟩ : Quaternionf ℝ)
        ≠ { out_yaw_radians := 2 * atan2f (0 : ℝ) 1
            out_pitch_radians := 0
            out_roll_radians := Real.pi / 2 }) ∧
    ((⟨1, 0, 0, -(8371831 / 16777216)⟩ : Quaternionf ℝ).x
          * (⟨1, 0, 0, -(8371831 / 16777216)⟩ : Quaternionf ℝ).y
        + (⟨1, 0, 0, -(8371831 / 16777216)⟩ : Quaternionf ℝ).z
          * (⟨1, 0, 0, -(8371831 / 16777216)⟩ : Quaternionf ℝ).w < -(499 / 1000) ∧
      (psmove_quaternion_get_yaw_pitch_roll
          (⟨1, 0, 0, -(8371831 / 16777216)⟩ : Quaternionf ℝ)).out_roll_radians
        = Real.arcsin (-(8371831 / 8388608)) ∧
      psmove_quaternion_get_yaw_pitch_roll
          (⟨1, 0, 0, -(8371831 / 16777216)⟩ : Quaternionf ℝ)
        ≠ { out_yaw_radians := -2 * atan2f (0 : ℝ) 1
            out_pitch_radians := 0
            out_roll_radians := -(Real.pi / 2) }) := by
  have hn : psmove_quaternion_get_yaw_pitch_roll
      (⟨1, 0, 0, 8371831 / 16777216⟩ : Quaternionf ℝ)
        = _ := get_yaw_pitch_roll_closed_form _ (by norm_num) (by norm_num)
  have hs : psmove_quaternion_get_yaw_pitch_roll
      (⟨1, 0, 0, -(8371831 / 16777216)⟩ : Quaternionf ℝ)
        = _ := get_yaw_pitch_roll_closed_form _ (by norm_num) (by norm_num)
  have hrn : (psmove_quaternion_get_yaw_pitch_roll
      (⟨1, 0, 0, 8371831 / 16777216⟩ : Quaternionf ℝ)).out_roll_radians
        = Real.arcsin (8371831 / 8388608) := by
    rw [hn, asinf_real]
    norm_num
  have hrs : (psmove_quaternion_get_yaw_pitch_roll
      (⟨1, 0, 0, -(8371831 / 16777216)⟩ : Quaternionf ℝ)).out_roll_radians
        = Real.arcsin (-(8371831 / 8388608)) := by
    rw [hs, asinf_real]
    norm_num
  refine ⟨⟨by norm_num, hrn, ?_⟩, ⟨by norm_num, hrs, ?_⟩⟩
  · intro h
    have h0 := congrArg YawPitchRoll.out_roll_radians h
    rw [hrn] at h0
    have h1 := Real.arcsin_eq_pi_div_two.mp h0
    norm_num at h1
  · intro h
    have h0 := congrArg YawPitchRoll.out_roll_radians h
    rw [hrs] at h0
    have h1 := Real.arcsin_eq_neg_pi_div_two.mp h0
    norm_num at h1

end PSMove
